import Mathlib

/-!
Verification of the retrieval engine in `app/services/rag.py`.

The Python functions are shallowly embedded as Lean definitions:
  * floating-point scores are modelled as exact rationals (`ℚ`);
  * Python `dict[int, float]` values are modelled as association lists
    `List (Nat × ℚ)` in insertion order;
  * strings are modelled as `List Char`;
  * the SQLite-backed searches (`bm25_search`, `semantic_search`) and the
    external collaborators (Notion fetch, embedding backend) are supplied
    as explicit inputs or outcome parameters, since the code treats them
    as opaque effectful calls.
Each definition follows the corresponding Python source line by line.
-/

/-- Python `min` over a non-empty list of values (`min(scores)`);
the `[]` case is never reached by callers, which guard for emptiness first. -/
def pyMin : List ℚ → ℚ
  | [] => 0
  | [x] => x
  | x :: y :: xs => min x (pyMin (y :: xs))

/-- Python `max` over a non-empty list of values (`max(scores)`). -/
def pyMax : List ℚ → ℚ
  | [] => 0
  | [x] => x
  | x :: y :: xs => max x (pyMax (y :: xs))

/-- `normalize_bm25_scores` from `rag.py` (lines 317–338): invert the raw
negative-is-better BM25 scores linearly over the batch min/max; a uniform
batch maps every id to `1.0`. -/
def normalize_bm25_scores (bm25_scores : List (Nat × ℚ)) : List (Nat × ℚ) :=
  match bm25_scores with
  | [] => []
  | _ =>
    let scores := bm25_scores.map Prod.snd
    let min_score := pyMin scores
    let max_score := pyMax scores
    if min_score = max_score then
      bm25_scores.map (fun p => (p.1, (1 : ℚ)))
    else
      let score_range := max_score - min_score
      bm25_scores.map (fun p => (p.1, (max_score - p.2) / score_range))

/-- `normalize_distances` from `rag.py` (lines 341–366): convert cosine
distances to similarities via `1 - d/2`, then min-max normalize; a uniform
batch maps every id to `1.0`. -/
def normalize_distances (distances : List (Nat × ℚ)) : List (Nat × ℚ) :=
  match distances with
  | [] => []
  | _ =>
    let similarities := distances.map (fun p => (p.1, 1 - p.2 / 2))
    let min_sim := pyMin (similarities.map Prod.snd)
    let max_sim := pyMax (similarities.map Prod.snd)
    if min_sim = max_sim then
      similarities.map (fun p => (p.1, (1 : ℚ)))
    else
      let sim_range := max_sim - min_sim
      similarities.map (fun p => (p.1, (p.2 - min_sim) / sim_range))

/-- Python `dict.get(id, 0.0)` on an insertion-ordered association list. -/
def dictGetQ (m : List (Nat × ℚ)) (k : Nat) : ℚ :=
  ((m.find? (fun p => p.1 = k)).map Prod.snd).getD 0

/-- Python `dict.get(id, {})` for the metadata mapping. -/
def lookupMeta {α : Type} (m : List (Nat × α)) (k : Nat) : Option α :=
  (m.find? (fun p => p.1 = k)).map Prod.snd

/-- `set(a) | set(b)` in first-seen order: the Python set iteration order over
small int ids is unspecified but fixed for a fixed input; the model fixes
first-seen order, which only permutes tied candidates in the final sort. -/
def unionKeys (a b : List Nat) : List Nat :=
  a ++ b.filter (fun i => decide (i ∉ a))

/-- A row of `embeddings_meta` as returned by `get_metadata_by_ids`
(lines 369–390); the JSON `metadata` column is kept as raw text. -/
structure MetaRec where
  source_type : List Char
  source_id : List Char
  content : List Char
  metadata : List Char
deriving Repr, DecidableEq

/-- One entry of the list built by `hybrid_search` (lines 448–457). -/
structure SearchResult where
  id : Nat
  content : List Char
  source_type : List Char
  source_id : List Char
  bm25_score : ℚ
  semantic_score : ℚ
  final_score : ℚ
deriving Repr, DecidableEq

/-- The score-fusion formula of `hybrid_search` line 445:
`final_score = (keyword_weight * bm25_score) + (semantic_weight * semantic_score)`. -/
def combined_score (keyword_weight semantic_weight bm25_score semantic_score : ℚ) : ℚ :=
  keyword_weight * bm25_score + semantic_weight * semantic_score

/-- `hybrid_search` from `rag.py` (lines 393–462), parameterized by the raw
outputs of the two SQLite-backed searches (`bm25_search`, `semantic_search`)
and by the metadata table rows, which the Python code obtains from the
database connection. The early `return []` on an empty union is equivalent
to running the remaining steps on the empty list. `list.sort(reverse=True)`
is a stable descending sort, modelled by `mergeSort` on the flipped order. -/
def hybrid_search (bm25_raw semantic_raw : List (Nat × ℚ)) (meta : List (Nat × MetaRec))
    (keyword_weight semantic_weight : ℚ) (top_k : Nat) : List SearchResult :=
  let bm25_normalized := normalize_bm25_scores bm25_raw
  let semantic_normalized := normalize_distances semantic_raw
  let all_ids := unionKeys (bm25_normalized.map Prod.fst) (semantic_normalized.map Prod.fst)
  let scored_results := all_ids.map (fun id =>
    let bm25_score := dictGetQ bm25_normalized id
    let semantic_score := dictGetQ semantic_normalized id
    let m := lookupMeta meta id
    { id := id
      content := ((m.map MetaRec.content).getD [])
      source_type := ((m.map MetaRec.source_type).getD [])
      source_id := ((m.map MetaRec.source_id).getD [])
      bm25_score := bm25_score
      semantic_score := semantic_score
      final_score := combined_score keyword_weight semantic_weight bm25_score semantic_score })
  (scored_results.mergeSort (fun a b => decide (b.final_score ≤ a.final_score))).take top_k

/-- Outcome of the FTS5 `MATCH` query executed by `bm25_search`: either the
fetched `(rowid, score)` rows, or a raised `sqlite3.OperationalError`
(malformed keyword query). The SQLite engine itself is external, so it is
passed in as a function of the escaped query and the limit. -/
inductive FtsOutcome where
  | rows (rs : List (Nat × ℚ))
  | operationalError
deriving Repr, DecidableEq

/-- The FTS5 escaping in `bm25_search` line 280: `query.replace('"', '""')`. -/
def safeQuery (q : List Char) : List Char :=
  q.flatMap (fun c => if c = '"' then ['"', '"'] else [c])

/-- `bm25_search` from `rag.py` (lines 270–293): run the escaped query against
the FTS5 index; a raised `sqlite3.OperationalError` is caught and turned into
the empty mapping, and the rows (empty when nothing matches) are returned as a
dict. Totality of this function is the model of "never raises". -/
def bm25_search (fts : List Char → Nat → FtsOutcome) (query : List Char) (limit : Nat) :
    List (Nat × ℚ) :=
  match fts (safeQuery query) limit with
  | .rows rs => rs
  | .operationalError => []

/-- The three coupled structures of the dual index store created by
`init_database` (lines 34–92): the `embeddings_meta` rows, the
`embeddings_fts` FTS5 rows (kept in sync by the `embeddings_ai` trigger)
and the `vec_embeddings` rows, each represented by the chunk ids it holds. -/
structure Store where
  meta : List Nat
  fts : List Nat
  vec : List Nat
deriving Repr, DecidableEq

def Store.empty : Store := ⟨[], [], []⟩

def Store.merge (s t : Store) : Store :=
  ⟨s.meta ++ t.meta, s.fts ++ t.fts, s.vec ++ t.vec⟩

/-- A `sqlite3` connection as `save_embedding` uses it: the committed store
visible to readers on other connections, the pending writes of the implicit
transaction opened by the first `INSERT`, and the next `AUTOINCREMENT` id. -/
structure Conn where
  committed : Store
  pending : Store
  nextId : Nat
deriving Repr, DecidableEq

/-- `save_embedding` from `rag.py` (lines 161–198). The metadata `INSERT`
always succeeds and (via the FTS trigger) adds the new rowid to the pending
meta and fts writes; the `vec_embeddings` `INSERT` either succeeds — in which
case `conn.commit()` publishes all pending writes — or raises
(`vecOk = false`), in which case the exception propagates with the meta and
fts inserts still pending on the connection: the code has no rollback. The
returned `Option Nat` is the rowid, `none` when the call raised. -/
def save_embedding (conn : Conn) (vecOk : Bool) : Conn × Option Nat :=
  let rowid := conn.nextId
  let p1 : Store := ⟨conn.pending.meta ++ [rowid], conn.pending.fts ++ [rowid],
    conn.pending.vec⟩
  if vecOk then
    let p2 : Store := ⟨p1.meta, p1.fts, p1.vec ++ [rowid]⟩
    (⟨conn.committed.merge p2, Store.empty, rowid + 1⟩, some rowid)
  else
    (⟨conn.committed, p1, rowid + 1⟩, none)

/-- A sequence of `save_embedding` calls, one boolean per call telling whether
its vector insert succeeds. -/
def runSaves (conn : Conn) : List Bool → Conn
  | [] => conn
  | b :: bs => runSaves (save_embedding conn b).1 bs

/-- The fresh connection on the database created by `init_database`:
empty committed store, no pending writes, first `AUTOINCREMENT` id 1. -/
def initConn : Conn := ⟨Store.empty, Store.empty, 1⟩

/-- Connection invariant maintained by `save_embedding` regardless of vector
insert failures: pending meta and fts writes move in lockstep (the trigger),
no vector write is ever left pending (a successful one commits at once), all
ids are below the autoincrement counter and never repeat, committed meta and
fts agree, and every committed vector row has a committed meta row. -/
def ConnInv (c : Conn) : Prop :=
  c.pending.meta = c.pending.fts
  ∧ c.pending.vec = []
  ∧ (c.committed.meta ++ c.pending.meta).Nodup
  ∧ (∀ i ∈ c.committed.meta ++ c.pending.meta, i < c.nextId)
  ∧ c.committed.meta = c.committed.fts
  ∧ (∀ i ∈ c.committed.vec, i ∈ c.committed.meta)

/-- ASCII whitespace as matched by Python `\s` and stripped by `str.strip()`
(space, tab, newline, carriage return, vertical tab, form feed); the chunked
Notion content is ASCII-oriented, and the model restricts to this set. -/
def isSpaceChar (c : Char) : Bool :=
  c = ' ' || c = '\t' || c = '\n' || c = '\r' || c = '\x0b' || c = '\x0c'

/-- Whether the regex `(?=^##\s+)` of `chunk_document` line 130 matches at
this position (the argument is the remainder of the text from a line start).
`\s` also matches the newline terminating a bare `##` line. -/
def isHeaderAt : List Char → Bool
  | a :: b :: c :: _ => a = '#' && b = '#' && isSpaceChar c
  | _ => false

/-- Worker for `re.split(r'(?=^##\s+)', content, flags=re.MULTILINE)`:
`cur` is the reversed text of the piece being accumulated; a new piece
starts right after a newline at which the lookahead matches. -/
def splitSecGo : List Char → List Char → List (List Char)
  | cur, [] => [cur.reverse]
  | cur, c :: rest =>
    if c = '\n' && isHeaderAt rest then
      (c :: cur).reverse :: splitSecGo [] rest
    else
      splitSecGo (c :: cur) rest

/-- `re.split(r'(?=^##\s+)', content, flags=re.MULTILINE)` of line 130;
a match at position 0 contributes a leading empty piece, as in Python. -/
def splitSections (cs : List Char) : List (List Char) :=
  if isHeaderAt cs then [] :: splitSecGo [] cs else splitSecGo [] cs

/-- Number of `##`-header split points strictly inside the text. -/
def countHeadersGo : List Char → Nat
  | [] => 0
  | c :: rest => (if c = '\n' && isHeaderAt rest then 1 else 0) + countHeadersGo rest

/-- Total number of second-level header split points of the document. -/
def countHeaders (cs : List Char) : Nat :=
  (if isHeaderAt cs then 1 else 0) + countHeadersGo cs

/-- Remove trailing ASCII whitespace (the right half of `str.strip()`). -/
def stripTrailing (cs : List Char) : List Char :=
  (cs.reverse.dropWhile isSpaceChar).reverse

/-- Python `str.strip()` over the modelled ASCII whitespace set. -/
def stripChars (cs : List Char) : List Char :=
  stripTrailing (cs.dropWhile isSpaceChar)

/-- The first line of a text (up to, not including, the first newline). -/
def firstLine (cs : List Char) : List Char :=
  cs.takeWhile (fun c => decide (c ≠ '\n'))

/-- Backtracking of the greedy `\s+` in `#\s+(.+)$`: `rest` is the text just
after the `#` marker; the drop count `j` runs down from the whitespace run
length, and the first position holding a non-newline character starts the
greedy `(.+)` capture, which always extends to the end of its line where `$`
holds (MULTILINE). -/
def titleBacktrack (rest : List Char) : Nat → Option (List Char)
  | 0 => none
  | Nat.succ j =>
    match rest.drop (Nat.succ j) with
    | [] => titleBacktrack rest j
    | c :: cs =>
      if c = '\n' then titleBacktrack rest j
      else some (List.takeWhile (fun x => decide (x ≠ '\n')) (c :: cs))

/-- Attempt to match `\s+(.+)$` directly after a header marker. -/
def matchTitleAfterHash (rest : List Char) : Option (List Char) :=
  let w := rest.takeWhile isSpaceChar
  if w.length = 0 then none else titleBacktrack rest w.length

/-- `re.search(r'^#\s+(.+)$', content, re.MULTILINE)` of line 126: scan the
text left to right, attempting the anchored match at every line start
(`atStart` tracks whether the current position follows a newline or is the
start of the text); returns the first capture group. -/
def findTitleAux : Bool → List Char → Option (List Char)
  | _, [] => none
  | atStart, c :: rest =>
    match (if atStart && c = '#' then matchTitleAfterHash rest else none) with
    | some t => some t
    | none => findTitleAux (decide (c = '\n')) rest

/-- The document title extraction of `chunk_document` line 126. -/
def findTitle (cs : List Char) : Option (List Char) :=
  findTitleAux true cs

/-- `re.search(r'^##\s+(.+)$', section, re.MULTILINE)` of line 139. -/
def findSubTitleAux : Bool → List Char → Option (List Char)
  | _, [] => none
  | atStart, c :: rest =>
    match (if atStart && c = '#' then
            (match rest with
             | c2 :: rest2 => if c2 = '#' then matchTitleAfterHash rest2 else none
             | [] => none)
           else none) with
    | some t => some t
    | none => findSubTitleAux (decide (c = '\n')) rest

/-- The section title extraction of `chunk_document` line 139. -/
def findSectionTitle (cs : List Char) : Option (List Char) :=
  findSubTitleAux true cs

/-- One chunk as built by `chunk_document`: the rendered content plus the
metadata dict, whose `section_title` key is present in the header-driven
path and absent in the fallback chunk of line 153. -/
structure Chunk where
  content : List Char
  msource_id : List Char
  msection_title : Option (List Char)
deriving Repr, DecidableEq

/-- `chunk_document` from `rag.py` (lines 116–153): extract the document
title (falling back to `source_id`), split on `##` headers, strip each
section, skip empty ones, render each surviving section with the
`[From: {source_id}]\n# {doc_title}\n\n` preamble, and fall back to a single
chunk holding the raw content when nothing survives. -/
def chunk_document (content source_id : List Char) : List Chunk :=
  let doc_title := (findTitle content).getD source_id
  let sections := splitSections content
  let chunks := sections.filterMap (fun sec =>
    let s := stripChars sec
    if s = [] then none
    else
      some { content := "[From: ".data ++ source_id ++ "]\n# ".data ++ doc_title
               ++ "\n\n".data ++ s
             msource_id := source_id
             msection_title := some ((findSectionTitle s).getD "Introduction".data) })
  if chunks = [] then
    [{ content := content, msource_id := source_id, msection_title := none }]
  else chunks

/-- Floor of a rational (`q.num // q.den` with flooring division). -/
def qfloor (q : ℚ) : ℤ :=
  Int.fdiv q.num (q.den : ℤ)

/-- Round-half-even, the rounding used by Python float formatting; the model
treats the score as an exact rational. -/
def roundHalfEven (q : ℚ) : ℤ :=
  let f := qfloor q
  let frac := q - (f : ℚ)
  if frac < 1 / 2 then f
  else if 1 / 2 < frac then f + 1
  else if f % 2 = 0 then f else f + 1

/-- Zero-padded two-digit rendering of a value below 100. -/
def padTwo (m : Nat) : List Char :=
  if m < 10 then '0' :: (Nat.repr m).data else (Nat.repr m).data

/-- Python `f"{x:.2f}"` on the modelled rational score. -/
def formatTwoDec (q : ℚ) : List Char :=
  let n := roundHalfEven (q * 100)
  let a := n.natAbs
  (if n < 0 then ['-'] else []) ++ (Nat.repr (a / 100)).data ++ '.' :: padTwo (a % 100)

/-- The entry header of `format_context_for_prompt` line 474:
`f"[{i}. {result['source_type']}] (score: {result['final_score']:.2f})"`. -/
def headerFor (i : Nat) (r : SearchResult) : List Char :=
  "[".data ++ (Nat.repr i).data ++ ". ".data ++ r.source_type ++ "] (score: ".data
    ++ formatTwoDec r.final_score ++ ")".data

/-- The accumulation loop of `format_context_for_prompt` (lines 473–486):
`available = max_chars - chars_used - len(header) - 10`; the loop breaks when
`available <= 100`, truncates an overlong content to `available - 3`
characters plus `"..."`, and otherwise appends the full entry
`f"{header}\n{content}\n"` and adds its length to `chars_used`. -/
def formatLoop : List SearchResult → Nat → ℤ → ℤ → List (List Char)
  | [], _, _, _ => []
  | r :: rest, i, max_chars, chars_used =>
    let header := headerFor i r
    let available : ℤ := max_chars - chars_used - (header.length : ℤ) - 10
    if available ≤ 100 then []
    else
      let content :=
        if available < (r.content.length : ℤ) then
          r.content.take (available - 3).toNat ++ "...".data
        else r.content
      let entry := header ++ '\n' :: (content ++ ['\n'])
      entry :: formatLoop rest (i + 1) max_chars (chars_used + (entry.length : ℤ))

/-- Python `"\n".join(parts)`. -/
def joinParts : List (List Char) → List Char
  | [] => []
  | [p] => p
  | p :: q :: ps => p ++ '\n' :: joinParts (q :: ps)

/-- `format_context_for_prompt` from `rag.py` (lines 465–488): the sentinel
for an empty result list, otherwise the joined rendered entries. -/
def format_context_for_prompt (results : List SearchResult) (max_chars : ℤ) : List Char :=
  if results = [] then "No relevant context found.".data
  else joinParts (formatLoop results 1 max_chars 0)

/-- The body of `embed_notion_page` (lines 214–241) before its catch-all
handler: the Notion fetch and the embedding backend are the two effectful
collaborators, modelled by the `fetched` outcome and the `embedOk` flag
(`generate_embeddings_batch` raises when the backend fails). On success it
returns the value `len(chunks)` together with the chunks saved through
`save_embedding`. -/
def embed_page_body (fetched : Except Unit (List Char)) (embedOk : Bool)
    (url : List Char) : Except Unit (Nat × List Chunk) :=
  match fetched with
  | .error e => .error e
  | .ok content =>
    if content = [] || stripChars content = [] then .ok (0, [])
    else
      let chunks := chunk_document content url
      if embedOk then .ok (chunks.length, chunks) else .error ()

/-- `embed_notion_page` from `rag.py` (lines 201–245): the whole body runs
inside `try: ... except Exception: return 0`, so every failure — including an
embedding backend failure — is swallowed and reported as 0 chunks saved. -/
def embed_notion_page (fetched : Except Unit (List Char)) (embedOk : Bool)
    (url : List Char) : Nat × List Chunk :=
  match embed_page_body fetched embedOk url with
  | .ok r => r
  | .error _ => (0, [])

/-- `retrieve_context` from `rag.py` (lines 491–496): `generate_embedding`
(modelled by the `embedQ` outcome) has no handler, so an embedding failure
propagates to the caller; otherwise the hybrid search runs with the default
weights and its results are formatted with the default 4000-character
budget. The store-backed searches are supplied as inputs as in
`hybrid_search`. -/
def retrieve_context (embedQ : Except Unit (List ℚ)) (bm25_raw : List (Nat × ℚ))
    (semantic_of : List ℚ → List (Nat × ℚ)) (meta : List (Nat × MetaRec))
    (top_k : Nat) : Except Unit (List Char × List SearchResult) :=
  match embedQ with
  | .error e => .error e
  | .ok qe =>
    let results := hybrid_search bm25_raw (semantic_of qe) meta (1 / 2) (1 / 2) top_k
    .ok (format_context_for_prompt results 4000, results)

/-- The per-section chunk builder inside `chunk_document` (lines 133–151),
with the strip already performed on the argument of the record fields. -/
def chunkFn (content source_id : List Char) (sec : List Char) : Option Chunk :=
  if stripChars sec = [] then none
  else
    some { content := "[From: ".data ++ source_id ++ "]\n# ".data ++
             ((findTitle content).getD source_id) ++ "\n\n".data ++ stripChars sec
           msource_id := source_id
           msection_title := some ((findSectionTitle (stripChars sec)).getD
             "Introduction".data) }

/-- The end-to-end ingestion document of the C5 scenario. -/
def lindaDoc : List Char :=
  "# Linda\n## Skills\nReact, Node.js\n## Availability\nOpen for freelance work".data

/-- Total character count of the accumulated entries (the final value of
`chars_used` in `format_context_for_prompt`). -/
def entryLens (ps : List (List Char)) : Nat :=
  (ps.map List.length).sum

/-- A concrete search result used to instantiate the formatter theorems:
its header renders as `[1. notion_page] (score: 0.50)` (30 characters). -/
def sampleResult : SearchResult :=
  { id := 1
    content := "Open for freelance work".data
    source_type := "notion_page".data
    source_id := "doc1".data
    bm25_score := 0
    semantic_score := 1
    final_score := 1 / 2 }

theorem pyMin_le_mem {l : List ℚ} {x : ℚ} (hx : x ∈ l) : pyMin l ≤ x := by
  induction l with
  | nil => cases hx
  | cons a t ih =>
    cases t with
    | nil => simp at hx; simp [pyMin, hx]
    | cons b u =>
      rcases List.mem_cons.mp hx with h | h
      · subst h; exact min_le_left _ _
      · exact le_trans (min_le_right _ _) (ih h)

theorem mem_le_pyMax {l : List ℚ} {x : ℚ} (hx : x ∈ l) : x ≤ pyMax l := by
  induction l with
  | nil => cases hx
  | cons a t ih =>
    cases t with
    | nil => simp at hx; simp [pyMax, hx]
    | cons b u =>
      rcases List.mem_cons.mp hx with h | h
      · subst h; exact le_max_left _ _
      · exact le_trans (ih h) (le_max_right _ _)

theorem pyMin_mem {l : List ℚ} (h : l ≠ []) : pyMin l ∈ l := by
  induction l with
  | nil => exact absurd rfl h
  | cons a t ih =>
    cases t with
    | nil => simp [pyMin]
    | cons b u =>
      rcases le_total a (pyMin (b :: u)) with hle | hle
      · simp [pyMin, min_eq_left hle]
      · have := ih (by simp)
        simp only [pyMin, min_eq_right hle]
        exact List.mem_cons_of_mem _ this

theorem pyMax_mem {l : List ℚ} (h : l ≠ []) : pyMax l ∈ l := by
  induction l with
  | nil => exact absurd rfl h
  | cons a t ih =>
    cases t with
    | nil => simp [pyMax]
    | cons b u =>
      rcases le_total (pyMax (b :: u)) a with hle | hle
      · simp [pyMax, max_eq_left hle]
      · have := ih (by simp)
        simp only [pyMax, max_eq_right hle]
        exact List.mem_cons_of_mem _ this

theorem pyMin_le_pyMax {l : List ℚ} (h : l ≠ []) : pyMin l ≤ pyMax l :=
  le_trans (pyMin_le_mem (pyMax_mem h)) le_rfl

theorem sim_max_min (a b : ℚ) : max (1 - a / 2) (1 - b / 2) = 1 - min a b / 2 := by
  rcases le_total a b with h | h
  · rw [min_eq_left h, max_eq_left (by linarith)]
  · rw [min_eq_right h, max_eq_right (by linarith)]

theorem pyMax_map_sim {l : List ℚ} (h : l ≠ []) :
    pyMax (l.map (fun x => 1 - x / 2)) = 1 - pyMin l / 2 := by
  induction l with
  | nil => exact absurd rfl h
  | cons a t ih =>
    cases t with
    | nil => rfl
    | cons b u =>
      have ihv := ih (by simp)
      show max (1 - a / 2) (pyMax ((b :: u).map (fun x => 1 - x / 2))) =
        1 - pyMin (a :: b :: u) / 2
      rw [ihv]
      exact sim_max_min a (pyMin (b :: u))

theorem normalize_bm25_cons (a : Nat × ℚ) (t : List (Nat × ℚ)) :
    normalize_bm25_scores (a :: t) =
      if pyMin ((a :: t).map Prod.snd) = pyMax ((a :: t).map Prod.snd) then
        (a :: t).map (fun p => (p.1, (1 : ℚ)))
      else
        (a :: t).map (fun p =>
          (p.1, (pyMax ((a :: t).map Prod.snd) - p.2) /
            (pyMax ((a :: t).map Prod.snd) - pyMin ((a :: t).map Prod.snd)))) := rfl

theorem normalize_distances_cons (a : Nat × ℚ) (t : List (Nat × ℚ)) :
    normalize_distances (a :: t) =
      if pyMin (((a :: t).map (fun p => (p.1, 1 - p.2 / 2))).map Prod.snd) =
          pyMax (((a :: t).map (fun p => (p.1, 1 - p.2 / 2))).map Prod.snd) then
        ((a :: t).map (fun p => (p.1, 1 - p.2 / 2))).map (fun p => (p.1, (1 : ℚ)))
      else
        ((a :: t).map (fun p => (p.1, 1 - p.2 / 2))).map (fun p =>
          (p.1, (p.2 - pyMin (((a :: t).map (fun p => (p.1, 1 - p.2 / 2))).map Prod.snd)) /
            (pyMax (((a :: t).map (fun p => (p.1, 1 - p.2 / 2))).map Prod.snd) -
              pyMin (((a :: t).map (fun p => (p.1, 1 - p.2 / 2))).map Prod.snd)))) := rfl

theorem keys_normalize_bm25 (l : List (Nat × ℚ)) :
    (normalize_bm25_scores l).map Prod.fst = l.map Prod.fst := by
  cases l with
  | nil => rfl
  | cons a t =>
    rw [normalize_bm25_cons]
    split <;> simp [List.map_map, Function.comp]

theorem keys_normalize_distances (l : List (Nat × ℚ)) :
    (normalize_distances l).map Prod.fst = l.map Prod.fst := by
  cases l with
  | nil => rfl
  | cons a t =>
    rw [normalize_distances_cons]
    split <;> simp [List.map_map, Function.comp]

theorem normalize_bm25_bounds {l : List (Nat × ℚ)} {p : Nat × ℚ}
    (hp : p ∈ normalize_bm25_scores l) : 0 ≤ p.2 ∧ p.2 ≤ 1 := by
  cases l with
  | nil => simp [normalize_bm25_scores] at hp
  | cons a t =>
    rw [normalize_bm25_cons] at hp
    split at hp
    · rcases List.mem_map.mp hp with ⟨q, _, rfl⟩
      norm_num
    · rename_i hne
      rcases List.mem_map.mp hp with ⟨q, hq, rfl⟩
      have hmem : q.2 ∈ (a :: t).map Prod.snd := List.mem_map_of_mem _ hq
      have hmin : pyMin ((a :: t).map Prod.snd) ≤ q.2 := pyMin_le_mem hmem
      have hmax : q.2 ≤ pyMax ((a :: t).map Prod.snd) := mem_le_pyMax hmem
      have hlt : pyMin ((a :: t).map Prod.snd) < pyMax ((a :: t).map Prod.snd) :=
        lt_of_le_of_ne (pyMin_le_pyMax (by simp)) hne
      constructor
      · exact div_nonneg (by linarith) (by linarith)
      · rw [div_le_one (by linarith)]; linarith

theorem normalize_bm25_best {l : List (Nat × ℚ)} {p : Nat × ℚ} (hp : p ∈ l)
    (hbest : p.2 = pyMin (l.map Prod.snd)) : (p.1, (1 : ℚ)) ∈ normalize_bm25_scores l := by
  cases l with
  | nil => cases hp
  | cons a t =>
    rw [normalize_bm25_cons]
    split
    · exact List.mem_map.mpr ⟨p, hp, rfl⟩
    · rename_i hne
      refine List.mem_map.mpr ⟨p, hp, ?_⟩
      rw [hbest, div_self (sub_ne_zero.mpr (Ne.symm hne))]

theorem normalize_bm25_uniform {l : List (Nat × ℚ)}
    (hu : ∀ p ∈ l, ∀ q ∈ l, Prod.snd p = Prod.snd q) {p : Nat × ℚ}
    (hp : p ∈ normalize_bm25_scores l) : p.2 = 1 := by
  cases l with
  | nil => simp [normalize_bm25_scores] at hp
  | cons a t =>
    have hmm : pyMin ((a :: t).map Prod.snd) = pyMax ((a :: t).map Prod.snd) := by
      rcases List.mem_map.mp (pyMin_mem (l := (a :: t).map Prod.snd) (by simp)) with
        ⟨q1, hq1, he1⟩
      rcases List.mem_map.mp (pyMax_mem (l := (a :: t).map Prod.snd) (by simp)) with
        ⟨q2, hq2, he2⟩
      rw [← he1, ← he2]; exact hu q1 hq1 q2 hq2
    rw [normalize_bm25_cons, if_pos hmm] at hp
    rcases List.mem_map.mp hp with ⟨q, _, rfl⟩
    rfl

theorem sims_snd (l : List (Nat × ℚ)) :
    (l.map (fun p => (p.1, 1 - p.2 / 2))).map Prod.snd =
      (l.map Prod.snd).map (fun x => 1 - x / 2) := by
  simp [List.map_map, Function.comp]

theorem normalize_distances_bounds {l : List (Nat × ℚ)} {p : Nat × ℚ}
    (hp : p ∈ normalize_distances l) : 0 ≤ p.2 ∧ p.2 ≤ 1 := by
  cases l with
  | nil => simp [normalize_distances] at hp
  | cons a t =>
    rw [normalize_distances_cons] at hp
    split at hp
    · rcases List.mem_map.mp hp with ⟨q, _, rfl⟩
      norm_num
    · rename_i hne
      rcases List.mem_map.mp hp with ⟨q, hq, rfl⟩
      have hmem : q.2 ∈ ((a :: t).map (fun p => (p.1, 1 - p.2 / 2))).map Prod.snd :=
        List.mem_map_of_mem _ hq
      have hmin := pyMin_le_mem hmem
      have hmax := mem_le_pyMax hmem
      have hlt := lt_of_le_of_ne
        (pyMin_le_pyMax (l := ((a :: t).map (fun p => (p.1, 1 - p.2 / 2))).map Prod.snd)
          (by simp)) hne
      constructor
      · exact div_nonneg (by linarith) (by linarith)
      · rw [div_le_one (by linarith)]; linarith

theorem normalize_distances_best {l : List (Nat × ℚ)} {p : Nat × ℚ} (hp : p ∈ l)
    (hbest : p.2 = pyMin (l.map Prod.snd)) : (p.1, (1 : ℚ)) ∈ normalize_distances l := by
  cases l with
  | nil => cases hp
  | cons a t =>
    have hsim : 1 - p.2 / 2 =
        pyMax (((a :: t).map (fun p => (p.1, 1 - p.2 / 2))).map Prod.snd) := by
      rw [sims_snd, pyMax_map_sim (by simp), hbest]
    rw [normalize_distances_cons]
    split
    · rename_i heq
      exact List.mem_map.mpr ⟨(p.1, 1 - p.2 / 2), List.mem_map.mpr ⟨p, hp, rfl⟩, rfl⟩
    · rename_i hne
      refine List.mem_map.mpr ⟨(p.1, 1 - p.2 / 2), List.mem_map.mpr ⟨p, hp, rfl⟩, ?_⟩
      show (p.1, _) = (p.1, (1 : ℚ))
      rw [Prod.mk.injEq]
      refine ⟨rfl, ?_⟩
      show (1 - p.2 / 2 - _) / _ = 1
      rw [hsim, div_self (sub_ne_zero.mpr (Ne.symm hne))]

theorem normalize_distances_uniform {l : List (Nat × ℚ)}
    (hu : ∀ p ∈ l, ∀ q ∈ l, Prod.snd p = Prod.snd q) {p : Nat × ℚ}
    (hp : p ∈ normalize_distances l) : p.2 = 1 := by
  cases l with
  | nil => simp [normalize_distances] at hp
  | cons a t =>
    have hmm : pyMin (((a :: t).map (fun p => (p.1, 1 - p.2 / 2))).map Prod.snd) =
        pyMax (((a :: t).map (fun p => (p.1, 1 - p.2 / 2))).map Prod.snd) := by
      rcases List.mem_map.mp
        (pyMin_mem (l := ((a :: t).map (fun p => (p.1, 1 - p.2 / 2))).map Prod.snd)
          (by simp)) with ⟨q1, hq1, he1⟩
      rcases List.mem_map.mp
        (pyMax_mem (l := ((a :: t).map (fun p => (p.1, 1 - p.2 / 2))).map Prod.snd)
          (by simp)) with ⟨q2, hq2, he2⟩
      rcases List.mem_map.mp hq1 with ⟨r1, hr1, rfl⟩
      rcases List.mem_map.mp hq2 with ⟨r2, hr2, rfl⟩
      rw [← he1, ← he2]
      show 1 - r1.2 / 2 = 1 - r2.2 / 2
      rw [hu r1 hr1 r2 hr2]
    rw [normalize_distances_cons, if_pos hmm] at hp
    rcases List.mem_map.mp hp with ⟨q, _, rfl⟩
    rfl

/-- C2: for every non-empty batch of raw scores, `normalize_bm25_scores` (lexical)
and `normalize_distances` (cosine distances) return scores for exactly the same
ids, every returned score lies in [0, 1], the best raw score (most negative
lexical score; smallest distance) is assigned 1, and a batch of all-equal raw
scores is normalized to all-1.0. -/
theorem C2_normalization (bm dist : List (Nat × ℚ)) (hbm : bm ≠ []) (hdist : dist ≠ []) :
    ((normalize_bm25_scores bm).map Prod.fst = bm.map Prod.fst
      ∧ (∀ p ∈ normalize_bm25_scores bm, 0 ≤ p.2 ∧ p.2 ≤ 1)
      ∧ (∀ p ∈ bm, p.2 = pyMin (bm.map Prod.snd) → (p.1, (1 : ℚ)) ∈ normalize_bm25_scores bm)
      ∧ ((∀ p ∈ bm, ∀ q ∈ bm, Prod.snd p = Prod.snd q) →
          ∀ p ∈ normalize_bm25_scores bm, p.2 = 1))
    ∧ ((normalize_distances dist).map Prod.fst = dist.map Prod.fst
      ∧ (∀ p ∈ normalize_distances dist, 0 ≤ p.2 ∧ p.2 ≤ 1)
      ∧ (∀ p ∈ dist, p.2 = pyMin (dist.map Prod.snd) →
          (p.1, (1 : ℚ)) ∈ normalize_distances dist)
      ∧ ((∀ p ∈ dist, ∀ q ∈ dist, Prod.snd p = Prod.snd q) →
          ∀ p ∈ normalize_distances dist, p.2 = 1)) := by
  refine ⟨⟨keys_normalize_bm25 bm, ?_, ?_, ?_⟩,
    keys_normalize_distances dist, ?_, ?_, ?_⟩
  · intro p hp; exact normalize_bm25_bounds hp
  · intro p hp hbest; exact normalize_bm25_best hp hbest
  · intro hu p hp; exact normalize_bm25_uniform hu hp
  · intro p hp; exact normalize_distances_bounds hp
  · intro p hp hbest; exact normalize_distances_best hp hbest
  · intro hu p hp; exact normalize_distances_uniform hu hp

/-- Witness for C2 at a concrete input: lexical batch `{1: -3, 2: -1}`
(id 1 best) and distance batch `{4: 1/2, 5: 3/2}` (id 4 best). -/
theorem C2_normalization_witness :
    ([((1 : Nat), (-3 : ℚ)), (2, -1)] ≠ ([] : List (Nat × ℚ)))
    ∧ ([((4 : Nat), (1 / 2 : ℚ)), (5, 3 / 2)] ≠ ([] : List (Nat × ℚ)))
    ∧ (((normalize_bm25_scores [((1 : Nat), (-3 : ℚ)), (2, -1)]).map Prod.fst =
          [((1 : Nat), (-3 : ℚ)), (2, -1)].map Prod.fst
      ∧ (∀ p ∈ normalize_bm25_scores [((1 : Nat), (-3 : ℚ)), (2, -1)], 0 ≤ p.2 ∧ p.2 ≤ 1)
      ∧ (∀ p ∈ [((1 : Nat), (-3 : ℚ)), (2, -1)],
          p.2 = pyMin ([((1 : Nat), (-3 : ℚ)), (2, -1)].map Prod.snd) →
          (p.1, (1 : ℚ)) ∈ normalize_bm25_scores [((1 : Nat), (-3 : ℚ)), (2, -1)])
      ∧ ((∀ p ∈ [((1 : Nat), (-3 : ℚ)), (2, -1)], ∀ q ∈ [((1 : Nat), (-3 : ℚ)), (2, -1)],
            Prod.snd p = Prod.snd q) →
          ∀ p ∈ normalize_bm25_scores [((1 : Nat), (-3 : ℚ)), (2, -1)], p.2 = 1))
    ∧ ((normalize_distances [((4 : Nat), (1 / 2 : ℚ)), (5, 3 / 2)]).map Prod.fst =
          [((4 : Nat), (1 / 2 : ℚ)), (5, 3 / 2)].map Prod.fst
      ∧ (∀ p ∈ normalize_distances [((4 : Nat), (1 / 2 : ℚ)), (5, 3 / 2)], 0 ≤ p.2 ∧ p.2 ≤ 1)
      ∧ (∀ p ∈ [((4 : Nat), (1 / 2 : ℚ)), (5, 3 / 2)],
          p.2 = pyMin ([((4 : Nat), (1 / 2 : ℚ)), (5, 3 / 2)].map Prod.snd) →
          (p.1, (1 : ℚ)) ∈ normalize_distances [((4 : Nat), (1 / 2 : ℚ)), (5, 3 / 2)])
      ∧ ((∀ p ∈ [((4 : Nat), (1 / 2 : ℚ)), (5, 3 / 2)],
            ∀ q ∈ [((4 : Nat), (1 / 2 : ℚ)), (5, 3 / 2)], Prod.snd p = Prod.snd q) →
          ∀ p ∈ normalize_distances [((4 : Nat), (1 / 2 : ℚ)), (5, 3 / 2)], p.2 = 1))) :=
  ⟨by decide, by decide,
    C2_normalization [((1 : Nat), (-3 : ℚ)), (2, -1)] [((4 : Nat), (1 / 2 : ℚ)), (5, 3 / 2)]
      (by decide) (by decide)⟩

theorem dictGetQ_eq_zero {m : List (Nat × ℚ)} {k : Nat} (h : k ∉ m.map Prod.fst) :
    dictGetQ m k = 0 := by
  have : m.find? (fun p => p.1 = k) = none := by
    rw [List.find?_eq_none]
    intro x hx hxk
    exact h (List.mem_map.mpr ⟨x, hx, by simpa using hxk⟩)
  simp [dictGetQ, this]

theorem mem_unionKeys {a b : List Nat} {i : Nat} :
    i ∈ unionKeys a b ↔ i ∈ a ∨ i ∈ b := by
  simp only [unionKeys, List.mem_append, List.mem_filter]
  constructor
  · rintro (h | ⟨h, _⟩)
    · exact Or.inl h
    · exact Or.inr h
  · rintro (h | h)
    · exact Or.inl h
    · by_cases ha : i ∈ a
      · exact Or.inl ha
      · exact Or.inr ⟨h, by simpa using ha⟩

theorem unionKeys_nodup {a b : List Nat} (ha : a.Nodup) (hb : b.Nodup) :
    (unionKeys a b).Nodup := by
  rw [unionKeys, List.nodup_append]
  refine ⟨ha, List.Nodup.filter _ hb, ?_⟩
  rw [List.disjoint_left]
  intro i hia hif
  rcases List.mem_filter.mp hif with ⟨_, hdec⟩
  exact (of_decide_eq_true hdec) hia

theorem unionKeys_length_eq {a b : List Nat} :
    (unionKeys a b).length = a.length + (b.filter (fun i => decide (i ∉ a))).length := by
  simp [unionKeys]

/-- C1: `hybrid_search` scores the union of the candidate ids of the lexical
and vector result sets, gives 0.0 to an id absent from one of them, combines
with `keyword_weight * lexical + semantic_weight * vector`, sorts descending
by combined score and truncates to `top_k`; being a function of its inputs,
the output is determined by them. -/
theorem C1_hybrid_search (bm sem : List (Nat × ℚ)) (meta : List (Nat × MetaRec))
    (kw sw : ℚ) (top_k : Nat)
    (hb : (bm.map Prod.fst).Nodup) (hs : (sem.map Prod.fst).Nodup) :
    (hybrid_search bm sem meta kw sw top_k).length ≤ top_k
    ∧ (hybrid_search bm sem meta kw sw top_k).Pairwise
        (fun a b => b.final_score ≤ a.final_score)
    ∧ (∀ r ∈ hybrid_search bm sem meta kw sw top_k,
        (r.id ∈ bm.map Prod.fst ∨ r.id ∈ sem.map Prod.fst)
        ∧ r.bm25_score = dictGetQ (normalize_bm25_scores bm) r.id
        ∧ r.semantic_score = dictGetQ (normalize_distances sem) r.id
        ∧ (r.id ∉ bm.map Prod.fst → r.bm25_score = 0)
        ∧ (r.id ∉ sem.map Prod.fst → r.semantic_score = 0)
        ∧ r.final_score = combined_score kw sw r.bm25_score r.semantic_score)
    ∧ ((hybrid_search bm sem meta kw sw top_k).map SearchResult.id).Nodup
    ∧ ((unionKeys (bm.map Prod.fst) (sem.map Prod.fst)).length ≤ top_k →
        ((hybrid_search bm sem meta kw sw top_k).map SearchResult.id).Perm
          (unionKeys (bm.map Prod.fst) (sem.map Prod.fst))) := by
  have hdef : hybrid_search bm sem meta kw sw top_k =
      (((unionKeys (bm.map Prod.fst) (sem.map Prod.fst)).map
        (fun id =>
          { id := id
            content := (((lookupMeta meta id).map MetaRec.content).getD [])
            source_type := (((lookupMeta meta id).map MetaRec.source_type).getD [])
            source_id := (((lookupMeta meta id).map MetaRec.source_id).getD [])
            bm25_score := dictGetQ (normalize_bm25_scores bm) id
            semantic_score := dictGetQ (normalize_distances sem) id
            final_score := combined_score kw sw (dictGetQ (normalize_bm25_scores bm) id)
                (dictGetQ (normalize_distances sem) id) : SearchResult })).mergeSort
        (fun a b => decide (b.final_score ≤ a.final_score))).take top_k := by
    simp only [hybrid_search, keys_normalize_bm25, keys_normalize_distances]
  set f : Nat → SearchResult := fun id =>
          { id := id
            content := (((lookupMeta meta id).map MetaRec.content).getD [])
            source_type := (((lookupMeta meta id).map MetaRec.source_type).getD [])
            source_id := (((lookupMeta meta id).map MetaRec.source_id).getD [])
            bm25_score := dictGetQ (normalize_bm25_scores bm) id
            semantic_score := dictGetQ (normalize_distances sem) id
            final_score := combined_score kw sw (dictGetQ (normalize_bm25_scores bm) id)
                (dictGetQ (normalize_distances sem) id) : SearchResult } with hf
  set S : List Nat := unionKeys (bm.map Prod.fst) (sem.map Prod.fst) with hS
  set le : SearchResult → SearchResult → Bool :=
    fun a b => decide (b.final_score ≤ a.final_score) with hle
  have hperm : ((S.map f).mergeSort le).Perm (S.map f) := List.mergeSort_perm _ _
  refine ⟨?_, ?_, ?_, ?_, ?_⟩
  · rw [hdef, List.length_take]
    exact inf_le_left
  · rw [hdef]
    have hsorted : ((S.map f).mergeSort le).Pairwise (fun a b => le a b = true) :=
      List.sorted_mergeSort
        (by intro a b c hab hbc
            exact decide_eq_true (le_trans (of_decide_eq_true hbc) (of_decide_eq_true hab)))
        (by intro a b
            rcases le_total b.final_score a.final_score with h | h
            · simp [hle, decide_eq_true h]
            · simp [hle, decide_eq_true h])
        (S.map f)
    exact List.Pairwise.sublist (List.take_sublist _ _)
      (hsorted.imp (fun h => of_decide_eq_true h))
  · intro r hr
    rw [hdef] at hr
    have hr2 : r ∈ (S.map f).mergeSort le := List.mem_of_mem_take hr
    rw [List.mem_mergeSort] at hr2
    rcases List.mem_map.mp hr2 with ⟨id, hid, rfl⟩
    refine ⟨mem_unionKeys.mp hid, rfl, rfl, ?_, ?_, rfl⟩
    · intro hnb
      show dictGetQ (normalize_bm25_scores bm) id = 0
      exact dictGetQ_eq_zero (by rwa [keys_normalize_bm25])
    · intro hns
      show dictGetQ (normalize_distances sem) id = 0
      exact dictGetQ_eq_zero (by rwa [keys_normalize_distances])
  · rw [hdef]
    have hmapid : (S.map f).map SearchResult.id = S := by
      rw [List.map_map]
      have : SearchResult.id ∘ f = fun id => id := by
        funext id; rfl
      rw [this]
      exact List.map_id' S
    have hSn : S.Nodup := unionKeys_nodup hb hs
    have hsortn : (((S.map f).mergeSort le).map SearchResult.id).Nodup := by
      rw [(hperm.map SearchResult.id).nodup_iff, hmapid]
      exact hSn
    exact List.Nodup.sublist
      (List.Sublist.map SearchResult.id (List.take_sublist _ _)) hsortn
  · intro hlen
    rw [hdef]
    have hlen2 : ((S.map f).mergeSort le).length ≤ top_k := by
      rw [hperm.length_eq, List.length_map]
      exact hlen
    rw [List.take_of_length_le hlen2]
    have hmapid : (S.map f).map SearchResult.id = S := by
      rw [List.map_map]
      have : SearchResult.id ∘ f = fun id => id := by
        funext id; rfl
      rw [this]
      exact List.map_id' S
    calc (((S.map f).mergeSort le).map SearchResult.id).Perm ((S.map f).map SearchResult.id) :=
        hperm.map _
      _ = S := hmapid

/-- Witness for C1 at a concrete input: lexical set `{1: -3, 2: -1}`,
vector set `{2: 1/2, 3: 3/2}`, default weights, `top_k = 2`. -/
theorem C1_hybrid_search_witness :
    (([((1 : Nat), (-3 : ℚ)), (2, -1)].map Prod.fst).Nodup
      ∧ ([((2 : Nat), (1 / 2 : ℚ)), (3, 3 / 2)].map Prod.fst).Nodup)
    ∧ ((hybrid_search [((1 : Nat), (-3 : ℚ)), (2, -1)] [((2 : Nat), (1 / 2 : ℚ)), (3, 3 / 2)]
          [] (1 / 2) (1 / 2) 2).length ≤ 2
      ∧ (hybrid_search [((1 : Nat), (-3 : ℚ)), (2, -1)] [((2 : Nat), (1 / 2 : ℚ)), (3, 3 / 2)]
          [] (1 / 2) (1 / 2) 2).Pairwise (fun a b => b.final_score ≤ a.final_score)
      ∧ (∀ r ∈ hybrid_search [((1 : Nat), (-3 : ℚ)), (2, -1)]
            [((2 : Nat), (1 / 2 : ℚ)), (3, 3 / 2)] [] (1 / 2) (1 / 2) 2,
          (r.id ∈ [((1 : Nat), (-3 : ℚ)), (2, -1)].map Prod.fst
            ∨ r.id ∈ [((2 : Nat), (1 / 2 : ℚ)), (3, 3 / 2)].map Prod.fst)
          ∧ r.bm25_score = dictGetQ (normalize_bm25_scores [((1 : Nat), (-3 : ℚ)), (2, -1)]) r.id
          ∧ r.semantic_score =
              dictGetQ (normalize_distances [((2 : Nat), (1 / 2 : ℚ)), (3, 3 / 2)]) r.id
          ∧ (r.id ∉ [((1 : Nat), (-3 : ℚ)), (2, -1)].map Prod.fst → r.bm25_score = 0)
          ∧ (r.id ∉ [((2 : Nat), (1 / 2 : ℚ)), (3, 3 / 2)].map Prod.fst → r.semantic_score = 0)
          ∧ r.final_score = combined_score (1 / 2) (1 / 2) r.bm25_score r.semantic_score)
      ∧ ((hybrid_search [((1 : Nat), (-3 : ℚ)), (2, -1)] [((2 : Nat), (1 / 2 : ℚ)), (3, 3 / 2)]
          [] (1 / 2) (1 / 2) 2).map SearchResult.id).Nodup
      ∧ ((unionKeys ([((1 : Nat), (-3 : ℚ)), (2, -1)].map Prod.fst)
            ([((2 : Nat), (1 / 2 : ℚ)), (3, 3 / 2)].map Prod.fst)).length ≤ 2 →
          ((hybrid_search [((1 : Nat), (-3 : ℚ)), (2, -1)] [((2 : Nat), (1 / 2 : ℚ)), (3, 3 / 2)]
            [] (1 / 2) (1 / 2) 2).map SearchResult.id).Perm
            (unionKeys ([((1 : Nat), (-3 : ℚ)), (2, -1)].map Prod.fst)
              ([((2 : Nat), (1 / 2 : ℚ)), (3, 3 / 2)].map Prod.fst)))) :=
  ⟨⟨by decide, by decide⟩,
    C1_hybrid_search [((1 : Nat), (-3 : ℚ)), (2, -1)] [((2 : Nat), (1 / 2 : ℚ)), (3, 3 / 2)]
      [] (1 / 2) (1 / 2) 2 (by decide) (by decide)⟩

/-- C9 as stated is false: for the fusion formula of `hybrid_search` line 445,
take candidate 1 with `(lexical, vector) = (2/5, 1/2)` (vector ≥ lexical) and
candidate 2 with `(1, 9/10)` (lexical ≥ vector); raising the vector weight
from 1/2 to 1 with keyword weight 1/2 lowers candidate 1's combined score
relative to candidate 2's, because candidate 2's vector score is larger. -/
theorem C9_monotonicity_counterexample :
    (1 / 2 : ℚ) ≤ (2 : ℚ) ∧ ((2 / 5 : ℚ) ≤ (1 / 2 : ℚ)) ∧ ((9 / 10 : ℚ) ≤ (1 : ℚ))
    ∧ ((1 / 2 : ℚ) < (1 : ℚ))
    ∧ combined_score (1 / 2) 1 (2 / 5) (1 / 2) - combined_score (1 / 2) 1 1 (9 / 10) <
        combined_score (1 / 2) (1 / 2) (2 / 5) (1 / 2) -
          combined_score (1 / 2) (1 / 2) 1 (9 / 10) := by
  refine ⟨by norm_num, by norm_num, by norm_num, by norm_num, ?_⟩
  norm_num [combined_score]

/-- C9 amended: the relative combined score is non-decreasing in the vector
weight provided the vector-leaning candidate's vector score is at least the
other candidate's vector score (the counterexample shows the claim fails
without that extra hypothesis). -/
theorem C9_monotonicity_amended (kw w w2 l1 v1 l2 v2 : ℚ)
    (h1 : l1 ≤ v1) (h2 : v2 ≤ l2) (hv : v2 ≤ v1) (hw : w ≤ w2) :
    combined_score kw w l1 v1 - combined_score kw w l2 v2 ≤
      combined_score kw w2 l1 v1 - combined_score kw w2 l2 v2 := by
  simp only [combined_score]
  nlinarith [mul_nonneg (sub_nonneg.mpr hw) (sub_nonneg.mpr hv)]

/-- Witness for the amended C9 at `kw = 1/2`, `l1 = 2/5`, `v1 = 1/2`,
`l2 = 1`, `v2 = 2/5`, weights `1/2 ≤ 1`. -/
theorem C9_monotonicity_amended_witness :
    ((2 / 5 : ℚ) ≤ 1 / 2 ∧ (2 / 5 : ℚ) ≤ 1 ∧ (2 / 5 : ℚ) ≤ 1 / 2 ∧ (1 / 2 : ℚ) ≤ 1)
    ∧ combined_score (1 / 2) (1 / 2) (2 / 5) (1 / 2) -
          combined_score (1 / 2) (1 / 2) 1 (2 / 5) ≤
        combined_score (1 / 2) 1 (2 / 5) (1 / 2) - combined_score (1 / 2) 1 1 (2 / 5) :=
  ⟨⟨by norm_num, by norm_num, by norm_num, by norm_num⟩,
    C9_monotonicity_amended (1 / 2) (1 / 2) 1 (2 / 5) (1 / 2) 1 (2 / 5)
      (by norm_num) (by norm_num) (by norm_num) (by norm_num)⟩

/-- C6: for every query and limit, if the FTS5 engine raises an
`OperationalError` (malformed query) or returns no rows (no keyword match),
`bm25_search` returns the empty mapping instead of propagating a failure;
`bm25_search` is a total function, so it never fails on any engine outcome. -/
theorem C6_bm25_search_empty (fts : List Char → Nat → FtsOutcome)
    (query : List Char) (limit : Nat) :
    (fts (safeQuery query) limit = .operationalError → bm25_search fts query limit = [])
    ∧ (fts (safeQuery query) limit = .rows [] → bm25_search fts query limit = []) := by
  constructor
  · intro h; simp [bm25_search, h]
  · intro h; simp [bm25_search, h]

/-- Witness for C6: a concrete engine that reports a malformed query for the
query `"AND"` and no rows for everything else. -/
theorem C6_bm25_search_empty_witness :
    ((fun (q : List Char) (_ : Nat) =>
        if q = "AND".data then FtsOutcome.operationalError else FtsOutcome.rows [])
          (safeQuery "AND".data) 100 = .operationalError →
      bm25_search (fun (q : List Char) (_ : Nat) =>
        if q = "AND".data then FtsOutcome.operationalError else FtsOutcome.rows [])
        "AND".data 100 = [])
    ∧ ((fun (q : List Char) (_ : Nat) =>
        if q = "AND".data then FtsOutcome.operationalError else FtsOutcome.rows [])
          (safeQuery "AND".data) 100 = .rows [] →
      bm25_search (fun (q : List Char) (_ : Nat) =>
        if q = "AND".data then FtsOutcome.operationalError else FtsOutcome.rows [])
        "AND".data 100 = []) :=
  C6_bm25_search_empty
    (fun (q : List Char) (_ : Nat) =>
      if q = "AND".data then FtsOutcome.operationalError else FtsOutcome.rows [])
    "AND".data 100

theorem connInv_init : ConnInv initConn := by
  refine ⟨rfl, rfl, ?_, ?_, rfl, ?_⟩ <;> simp [initConn, Store.empty]

theorem nodup_append_new {l : List Nat} {n : Nat} (hl : l.Nodup) (hn : ∀ i ∈ l, i < n) :
    (l ++ [n]).Nodup := by
  rw [List.nodup_append]
  refine ⟨hl, List.nodup_singleton n, ?_⟩
  rw [List.disjoint_left]
  intro i hi hmem
  rcases List.mem_singleton.mp hmem with rfl
  exact lt_irrefl i (hn i hi)

theorem connInv_save (c : Conn) (b : Bool) (h : ConnInv c) :
    ConnInv (save_embedding c b).1 := by
  obtain ⟨h1, h2, h3, h4, h5, h6⟩ := h
  cases b with
  | false =>
    simp only [save_embedding, Bool.false_eq_true, if_false]
    refine ⟨by simpa using h1, h2, ?_, ?_, h5, h6⟩
    · rw [← List.append_assoc]
      exact nodup_append_new h3 (fun i hi => h4 i hi)
    · intro i hi
      rw [← List.append_assoc, List.mem_append] at hi
      rcases hi with hi | hi
      · exact lt_trans (h4 i hi) (Nat.lt_succ_self _)
      · rcases List.mem_singleton.mp hi with rfl
        exact Nat.lt_succ_self _
  | true =>
    simp only [save_embedding, if_true]
    refine ⟨rfl, rfl, ?_, ?_, ?_, ?_⟩
    · show ((c.committed.meta ++ (c.pending.meta ++ [c.nextId])) ++ Store.empty.meta).Nodup
      rw [show Store.empty.meta = ([] : List Nat) from rfl, List.append_nil,
        ← List.append_assoc]
      exact nodup_append_new h3 (fun i hi => h4 i hi)
    · intro i hi
      have hi2 : i ∈ (c.committed.meta ++ (c.pending.meta ++ [c.nextId])) ++ ([] : List Nat) :=
        hi
      show i < c.nextId + 1
      rw [List.append_nil, ← List.append_assoc, List.mem_append] at hi2
      rcases hi2 with hi2 | hi2
      · exact lt_trans (h4 i hi2) (Nat.lt_succ_self _)
      · rcases List.mem_singleton.mp hi2 with rfl
        exact Nat.lt_succ_self _
    · show c.committed.meta ++ (c.pending.meta ++ [c.nextId]) =
        c.committed.fts ++ (c.pending.fts ++ [c.nextId])
      rw [h1, h5]
    · intro i hi
      have hi2 : i ∈ c.committed.vec ++ (c.pending.vec ++ [c.nextId]) := hi
      show i ∈ c.committed.meta ++ (c.pending.meta ++ [c.nextId])
      rw [List.mem_append] at hi2 ⊢
      rcases hi2 with hi2 | hi2
      · exact Or.inl (h6 i hi2)
      · rw [h2, List.nil_append] at hi2
        refine Or.inr ?_
        rw [List.mem_append]
        exact Or.inr hi2

theorem connInv_runSaves (c : Conn) (bs : List Bool) (h : ConnInv c) :
    ConnInv (runSaves c bs) := by
  induction bs generalizing c with
  | nil => exact h
  | cons b bs ih => exact ih _ (connInv_save c b h)

/-- C3 as stated is false: `save_embedding` has no rollback, so after a save
whose vector insert raises (leaving the metadata and FTS inserts pending on
the connection) followed by an ordinary successful save, the commit of the
second save publishes the orphaned row: chunk id 1 is visible to readers in
the metadata table and the keyword index but absent from the vector index. -/
theorem C3_atomicity_counterexample :
    (1 : Nat) ∈ (runSaves initConn [false, true]).committed.fts
    ∧ (1 : Nat) ∈ (runSaves initConn [false, true]).committed.meta
    ∧ (1 : Nat) ∉ (runSaves initConn [false, true]).committed.vec := by
  refine ⟨?_, ?_, ?_⟩ <;> decide

/-- C3 amended: referential integrity does hold unconditionally — after any
sequence of saves every id in the committed keyword index or vector index
refers to exactly one committed metadata row (the meta list never repeats an
id) — and the three structures are written as one atomic unit whenever every
vector insert succeeds; but a save whose vector insert fails can, after a
later commit, leave a chunk visible in the metadata table and keyword index
while absent from the vector index. -/
theorem C3_save_amended (bs : List Bool) :
    ((runSaves initConn bs).committed.fts = (runSaves initConn bs).committed.meta
    ∧ (∀ i ∈ (runSaves initConn bs).committed.vec,
        i ∈ (runSaves initConn bs).committed.meta)
    ∧ (runSaves initConn bs).committed.meta.Nodup)
    ∧ ((∀ b ∈ bs, b = true) →
        (runSaves initConn bs).pending = Store.empty
        ∧ (runSaves initConn bs).committed.meta = (runSaves initConn bs).committed.fts
        ∧ (runSaves initConn bs).committed.fts = (runSaves initConn bs).committed.vec) := by
  have hinv := connInv_runSaves initConn bs connInv_init
  obtain ⟨h1, h2, h3, h4, h5, h6⟩ := hinv
  refine ⟨⟨h5.symm, h6, ?_⟩, ?_⟩
  · have := List.nodup_append.mp h3
    exact this.1
  · intro hall
    have key : ∀ (c : Conn) (bs2 : List Bool), (∀ b ∈ bs2, b = true) →
        c.pending = Store.empty → c.committed.meta = c.committed.fts →
        c.committed.fts = c.committed.vec →
        (runSaves c bs2).pending = Store.empty
        ∧ (runSaves c bs2).committed.meta = (runSaves c bs2).committed.fts
        ∧ (runSaves c bs2).committed.fts = (runSaves c bs2).committed.vec := by
      intro c bs2
      induction bs2 generalizing c with
      | nil => exact fun _ hp hm hf => ⟨hp, hm, hf⟩
      | cons b bs2 ih =>
        intro hall2 hp hm hf
        have hb : b = true := hall2 b (List.mem_cons_self b bs2)
        subst hb
        refine ih _ (fun x hx => hall2 x (List.mem_cons_of_mem _ hx)) ?_ ?_ ?_
        · rfl
        · show c.committed.meta ++ (c.pending.meta ++ [c.nextId]) =
            c.committed.fts ++ (c.pending.fts ++ [c.nextId])
          rw [hm, hp]
          rfl
        · show c.committed.fts ++ (c.pending.fts ++ [c.nextId]) =
            c.committed.vec ++ (c.pending.vec ++ [c.nextId])
          rw [hf, hp]
          rfl
    exact key initConn bs hall rfl rfl rfl

/-- Witness for the amended C3 on the concrete all-successful sequence
of three saves. -/
theorem C3_save_amended_witness :
    (∀ b ∈ [true, true, true], b = true)
    ∧ (((runSaves initConn [true, true, true]).committed.fts =
          (runSaves initConn [true, true, true]).committed.meta
      ∧ (∀ i ∈ (runSaves initConn [true, true, true]).committed.vec,
          i ∈ (runSaves initConn [true, true, true]).committed.meta)
      ∧ (runSaves initConn [true, true, true]).committed.meta.Nodup)
    ∧ ((∀ b ∈ [true, true, true], b = true) →
        (runSaves initConn [true, true, true]).pending = Store.empty
        ∧ (runSaves initConn [true, true, true]).committed.meta =
            (runSaves initConn [true, true, true]).committed.fts
        ∧ (runSaves initConn [true, true, true]).committed.fts =
            (runSaves initConn [true, true, true]).committed.vec)) :=
  ⟨by decide, C3_save_amended [true, true, true]⟩

theorem isHeaderAt_shape {cs : List Char} (h : isHeaderAt cs = true) :
    ∃ c3 r, cs = '#' :: '#' :: c3 :: r ∧ isSpaceChar c3 = true := by
  match cs with
  | [] => simp [isHeaderAt] at h
  | [a] => simp [isHeaderAt] at h
  | [a, b] => simp [isHeaderAt] at h
  | a :: b :: c :: r =>
    simp only [isHeaderAt, Bool.and_eq_true, decide_eq_true_eq] at h
    exact ⟨c, r, by rw [h.1.1, h.1.2], h.2⟩

theorem splitSecGo_length (cs : List Char) : ∀ cur,
    (splitSecGo cur cs).length = countHeadersGo cs + 1 := by
  induction cs with
  | nil => intro cur; rfl
  | cons c rest ih =>
    intro cur
    cases hc : (decide (c = '\n') && isHeaderAt rest) with
    | true =>
      simp only [splitSecGo, countHeadersGo, hc, if_true, List.length_cons, ih]
      omega
    | false =>
      simp only [splitSecGo, countHeadersGo, hc, Bool.false_eq_true, if_false, ih]
      omega

theorem splitSections_length (cs : List Char) :
    (splitSections cs).length = countHeaders cs + 1 := by
  cases hc : isHeaderAt cs with
  | true =>
    simp only [splitSections, countHeaders, hc, if_true, List.length_cons,
      splitSecGo_length]
    omega
  | false =>
    simp only [splitSections, countHeaders, hc, Bool.false_eq_true, if_false,
      splitSecGo_length]
    omega

theorem splitSecGo_head_shape (cs : List Char) : ∀ cur,
    ∃ t r2, splitSecGo cur cs = (cur.reverse ++ t) :: r2 := by
  induction cs with
  | nil => intro cur; exact ⟨[], [], by simp [splitSecGo]⟩
  | cons c rest ih =>
    intro cur
    cases hc : (decide (c = '\n') && isHeaderAt rest) with
    | true =>
      refine ⟨[c], splitSecGo [] rest, ?_⟩
      simp [splitSecGo, hc]
    | false =>
      rcases ih (c :: cur) with ⟨t, r2, ht⟩
      refine ⟨c :: t, r2, ?_⟩
      simp only [splitSecGo, hc, Bool.false_eq_true, if_false, ht]
      simp

theorem splitSecGo_header_head {cs : List Char} (h : isHeaderAt cs = true) :
    ∃ c3 t r2, splitSecGo [] cs = ('#' :: '#' :: c3 :: t) :: r2
      ∧ isSpaceChar c3 = true := by
  rcases isHeaderAt_shape h with ⟨c3, r, rfl, hsp⟩
  have hno : (decide (('#' : Char) = '\n')) = false := by decide
  cases hc : (decide (c3 = '\n') && isHeaderAt r) with
  | true =>
    refine ⟨c3, [], splitSecGo [] r, ?_, hsp⟩
    have h1 : (decide (('#' : Char) = '\n') && isHeaderAt ('#' :: c3 :: r)) = false := by
      rw [hno]; rfl
    have h2 : (decide (('#' : Char) = '\n') && isHeaderAt (c3 :: r)) = false := by
      rw [hno]; rfl
    have hc3 : c3 = '\n' := of_decide_eq_true ((Bool.and_eq_true _ _ ▸ hc).1)
    simp only [splitSecGo, h1, h2, hc, Bool.false_eq_true, if_false, if_true]
    subst hc3
    simp
  | false =>
    rcases splitSecGo_head_shape r [c3, '#', '#'] with ⟨t, r2, ht⟩
    refine ⟨c3, t, r2, ?_, hsp⟩
    have h1 : (decide (('#' : Char) = '\n') && isHeaderAt ('#' :: c3 :: r)) = false := by
      rw [hno]; rfl
    have h2 : (decide (('#' : Char) = '\n') && isHeaderAt (c3 :: r)) = false := by
      rw [hno]; rfl
    simp only [splitSecGo, h1, h2, hc, Bool.false_eq_true, if_false, ht]
    simp

theorem splitSecGo_tail_header (cs : List Char) : ∀ cur,
    ∀ s ∈ (splitSecGo cur cs).tail,
      ∃ c3 t, s = '#' :: '#' :: c3 :: t ∧ isSpaceChar c3 = true := by
  induction cs with
  | nil => intro cur s hs; simp [splitSecGo] at hs
  | cons c rest ih =>
    intro cur s hs
    cases hc : (decide (c = '\n') && isHeaderAt rest) with
    | true =>
      simp only [splitSecGo, hc, if_true, List.tail_cons] at hs
      have hhdr : isHeaderAt rest = true := (Bool.and_eq_true _ _ ▸ hc).2
      rcases splitSecGo_header_head hhdr with ⟨c3, t, r2, heq, hsp⟩
      rw [heq] at hs
      rcases List.mem_cons.mp hs with rfl | hs2
      · exact ⟨c3, t, rfl, hsp⟩
      · exact ih [] s (by rw [heq]; simpa using hs2)
    | false =>
      simp only [splitSecGo, hc, Bool.false_eq_true, if_false] at hs
      exact ih (c :: cur) s hs

theorem splitSections_tail_header {cs : List Char} :
    ∀ s ∈ (splitSections cs).tail,
      ∃ c3 t, s = '#' :: '#' :: c3 :: t ∧ isSpaceChar c3 = true := by
  intro s hs
  by_cases hc : isHeaderAt cs = true
  · simp only [splitSections, hc, if_true, List.tail_cons] at hs
    rcases splitSecGo_header_head hc with ⟨c3, t, r2, heq, hsp⟩
    rw [heq] at hs
    rcases List.mem_cons.mp hs with rfl | hs2
    · exact ⟨c3, t, rfl, hsp⟩
    · exact splitSecGo_tail_header cs [] s (by rw [heq]; simpa using hs2)
  · simp only [splitSections, hc, if_false] at hs
    exact splitSecGo_tail_header cs [] s hs

theorem dropWhile_ne_nil_of_mem {p : Char → Bool} {l : List Char} {x : Char}
    (hx : x ∈ l) (hpx : p x = false) : l.dropWhile p ≠ [] := by
  induction l with
  | nil => cases hx
  | cons a t ih =>
    rw [List.dropWhile_cons]
    rcases List.mem_cons.mp hx with rfl | hmem
    · rw [hpx]
      simp
    · split
      · exact ih hmem
      · simp

theorem stripTrailing_isPrefix (l : List Char) : stripTrailing l <+: l := by
  have h := List.dropWhile_suffix (l := l.reverse) isSpaceChar
  have h2 := List.reverse_prefix.mpr h
  rwa [List.reverse_reverse] at h2

theorem stripTrailing_append (A B : List Char) :
    stripTrailing (A ++ B) =
      if stripTrailing B = [] then stripTrailing A else A ++ stripTrailing B := by
  simp only [stripTrailing, List.reverse_append, List.dropWhile_append]
  by_cases hb : (B.reverse.dropWhile isSpaceChar).isEmpty = true
  · rw [if_pos hb]
    have hb2 : (B.reverse.dropWhile isSpaceChar).reverse = [] := by
      rw [List.isEmpty_iff.mp hb]; rfl
    rw [if_pos hb2]
  · rw [if_neg hb]
    have hb2 : ¬((B.reverse.dropWhile isSpaceChar).reverse = []) := by
      intro hc
      exact hb (List.isEmpty_iff.mpr (by simpa using congrArg List.reverse hc))
    rw [if_neg hb2, List.reverse_append, List.reverse_reverse]

theorem stripChars_of_head_not_space {c : Char} {s : List Char}
    (h : isSpaceChar c = false) : stripChars (c :: s) = stripTrailing (c :: s) := by
  simp only [stripChars, List.dropWhile_cons, h]
  rfl

theorem stripChars_ne_nil_of_head {c : Char} {s : List Char}
    (h : isSpaceChar c = false) : stripChars (c :: s) ≠ [] := by
  rw [stripChars_of_head_not_space h]
  intro hc
  have : (c :: s).reverse.dropWhile isSpaceChar = [] := by
    have := congrArg List.reverse hc
    simpa [stripTrailing] using this
  exact dropWhile_ne_nil_of_mem (x := c) (by simp) h this

theorem firstLine_decomp (s : List Char) :
    s = firstLine s ++ s.dropWhile (fun c => decide (c ≠ '\n')) :=
  (List.takeWhile_append_dropWhile _ _).symm

theorem stripTrailing_firstLine_isPrefix {c : Char} {s : List Char}
    (h : isSpaceChar c = false) :
    stripTrailing (firstLine (c :: s)) <+: stripChars (c :: s) := by
  rw [stripChars_of_head_not_space h]
  have hdec := firstLine_decomp (c :: s)
  rw [show stripTrailing (c :: s) =
      stripTrailing (firstLine (c :: s) ++ (c :: s).dropWhile (fun c => decide (c ≠ '\n')))
    from by rw [← hdec]]
  rw [stripTrailing_append]
  split
  · exact (List.prefix_append _ []).trans (by simp)
  · exact (stripTrailing_isPrefix _).trans (List.prefix_append _ _)

theorem chunk_document_eq (content source_id : List Char) :
    chunk_document content source_id =
      if (splitSections content).filterMap (chunkFn content source_id) = [] then
        [{ content := content, msource_id := source_id, msection_title := none }]
      else (splitSections content).filterMap (chunkFn content source_id) := rfl

theorem length_filterMap_all_some {α β : Type} {f : α → Option β} {l : List α}
    (h : ∀ x ∈ l, (f x).isSome = true) : (l.filterMap f).length = l.length := by
  induction l with
  | nil => rfl
  | cons a t ih =>
    rw [List.filterMap_cons]
    have ha := h a (by simp)
    match hfa : f a with
    | some b =>
      simp only [List.length_cons]
      rw [ih (fun x hx => h x (List.mem_cons_of_mem _ hx))]
    | none => rw [hfa] at ha; simp at ha

theorem splitSections_ne_nil (cs : List Char) : splitSections cs ≠ [] := by
  intro hc
  have := splitSections_length cs
  rw [hc] at this
  simp at this

theorem strip_ne_of_header {s : List Char} {c3 : Char} {t : List Char}
    (hs : s = '#' :: '#' :: c3 :: t) : stripChars s ≠ [] := by
  subst hs
  exact stripChars_ne_nil_of_head (by decide)

theorem isHeaderAt_of_shape {c3 : Char} {t : List Char} (hsp : isSpaceChar c3 = true) :
    isHeaderAt ('#' :: '#' :: c3 :: t) = true := by
  simp [isHeaderAt, hsp]

theorem chunk_document_length (content source_id : List Char)
    (h : 1 ≤ countHeaders content) :
    (chunk_document content source_id).length =
      (if stripChars ((splitSections content).headI) = [] then 0 else 1) +
        countHeaders content := by
  obtain ⟨s0, tl, hsecs⟩ := List.exists_cons_of_ne_nil (splitSections_ne_nil content)
  have hlen := splitSections_length content
  rw [hsecs] at hlen
  simp only [List.length_cons] at hlen
  have htl_len : tl.length = countHeaders content := by omega
  have htl_some : ∀ x ∈ tl, (chunkFn content source_id x).isSome = true := by
    intro x hx
    have hx2 : x ∈ (splitSections content).tail := by rw [hsecs]; simpa using hx
    rcases splitSections_tail_header x hx2 with ⟨c3, t, hshape, _⟩
    rw [chunkFn, if_neg (strip_ne_of_header hshape)]
    rfl
  have hfmtl : ((tl.filterMap (chunkFn content source_id)).length = tl.length) :=
    length_filterMap_all_some htl_some
  rw [chunk_document_eq, hsecs]
  rw [List.filterMap_cons]
  rw [show (s0 :: tl).headI = s0 from rfl]
  by_cases hstrip : stripChars s0 = []
  · rw [show chunkFn content source_id s0 = none from by rw [chunkFn, if_pos hstrip]]
    have hne : tl.filterMap (chunkFn content source_id) ≠ [] := by
      intro hc
      rw [hc] at hfmtl
      simp at hfmtl
      omega
    simp only [if_pos hstrip, if_neg hne]
    omega
  · rw [show chunkFn content source_id s0 =
        some { content := "[From: ".data ++ source_id ++ "]\n# ".data ++
                 ((findTitle content).getD source_id) ++ "\n\n".data ++ stripChars s0
               msource_id := source_id
               msection_title := some ((findSectionTitle (stripChars s0)).getD
                 "Introduction".data) } from by rw [chunkFn, if_neg hstrip]]
    simp only [if_neg hstrip]
    rw [if_neg (by simp : ¬(_ :: tl.filterMap (chunkFn content source_id) = []))]
    simp only [List.length_cons]
    omega

theorem chunks_ne_nil (content source_id : List Char) (h : 1 ≤ countHeaders content) :
    (splitSections content).filterMap (chunkFn content source_id) ≠ [] := by
  obtain ⟨s0, tl, hsecs⟩ := List.exists_cons_of_ne_nil (splitSections_ne_nil content)
  have hlen := splitSections_length content
  rw [hsecs] at hlen
  simp only [List.length_cons] at hlen
  have htl_some : ∀ x ∈ tl, (chunkFn content source_id x).isSome = true := by
    intro x hx
    have hx2 : x ∈ (splitSections content).tail := by rw [hsecs]; simpa using hx
    rcases splitSections_tail_header x hx2 with ⟨c3, t, hshape, _⟩
    rw [chunkFn, if_neg (strip_ne_of_header hshape)]
    rfl
  intro hc
  rw [hsecs, List.filterMap_cons] at hc
  have htlnil : tl.filterMap (chunkFn content source_id) = [] := by
    match hfa : chunkFn content source_id s0 with
    | none => rw [hfa] at hc; exact hc
    | some b => rw [hfa] at hc; cases hc
  have := length_filterMap_all_some htl_some
  rw [htlnil] at this
  simp at this
  omega

theorem chunk_document_header_section (content source_id : List Char) {s : List Char}
    (hs : s ∈ (splitSections content).tail) :
    isHeaderAt s = true
    ∧ ∃ ch ∈ chunk_document content source_id,
        ch.content = "[From: ".data ++ source_id ++ "]\n# ".data ++
            ((findTitle content).getD source_id) ++ "\n\n".data ++ stripChars s
        ∧ stripTrailing (firstLine s) <+: stripChars s := by
  rcases splitSections_tail_header s hs with ⟨c3, t, hshape, hsp⟩
  have hmem : s ∈ splitSections content :=
    List.Sublist.mem hs (List.tail_sublist _)
  have hstrip : stripChars s ≠ [] := strip_ne_of_header hshape
  have hfn : chunkFn content source_id s =
      some { content := "[From: ".data ++ source_id ++ "]\n# ".data ++
               ((findTitle content).getD source_id) ++ "\n\n".data ++ stripChars s
             msource_id := source_id
             msection_title := some ((findSectionTitle (stripChars s)).getD
               "Introduction".data) } := by
    rw [chunkFn, if_neg hstrip]
  have hch : { content := "[From: ".data ++ source_id ++ "]\n# ".data ++
                 ((findTitle content).getD source_id) ++ "\n\n".data ++ stripChars s
               msource_id := source_id
               msection_title := some ((findSectionTitle (stripChars s)).getD
                 "Introduction".data) : Chunk } ∈
      (splitSections content).filterMap (chunkFn content source_id) :=
    List.mem_filterMap.mpr ⟨s, hmem, hfn⟩
  refine ⟨by rw [hshape]; exact isHeaderAt_of_shape hsp, ?_⟩
  refine ⟨{ content := "[From: ".data ++ source_id ++ "]\n# ".data ++
              ((findTitle content).getD source_id) ++ "\n\n".data ++ stripChars s
            msource_id := source_id
            msection_title := some ((findSectionTitle (stripChars s)).getD
              "Introduction".data) }, ?_, rfl, ?_⟩
  · rw [chunk_document_eq, if_neg (List.ne_nil_of_mem hch)]
    exact hch
  · rw [hshape]
    exact stripTrailing_firstLine_isPrefix (by decide)

theorem chunk_document_title_infix (content source_id : List Char)
    (h : 1 ≤ countHeaders content) :
    ∀ ch ∈ chunk_document content source_id,
      ("# ".data ++ (findTitle content).getD source_id) <:+: ch.content := by
  intro ch hch
  have hne := chunks_ne_nil content source_id h
  rw [chunk_document_eq, if_neg hne] at hch
  rcases List.mem_filterMap.mp hch with ⟨sec, hsec, hfn⟩
  rw [chunkFn] at hfn
  by_cases hstrip : stripChars sec = []
  · rw [if_pos hstrip] at hfn; cases hfn
  · rw [if_neg hstrip] at hfn
    obtain rfl := Option.some.inj hfn
    refine ⟨"[From: ".data ++ source_id ++ [']', '\n'], "\n\n".data ++ stripChars sec, ?_⟩
    show ("[From: ".data ++ source_id ++ [']', '\n']) ++
        ("# ".data ++ (findTitle content).getD source_id) ++
        ("\n\n".data ++ stripChars sec) =
      "[From: ".data ++ source_id ++ "]\n# ".data ++
        ((findTitle content).getD source_id) ++ "\n\n".data ++ stripChars sec
    rw [show ("]\n# ".data : List Char) = [']', '\n'] ++ "# ".data from by decide]
    simp [List.append_assoc]

theorem takeWhile_no_nl_append (t u2 : List Char) (hnl : ∀ c ∈ t, c ≠ '\n')
    (hu : u2 = [] ∨ ∃ r, u2 = '\n' :: r) :
    List.takeWhile (fun x => decide (x ≠ '\n')) (t ++ u2) = t := by
  induction t with
  | nil =>
    rcases hu with rfl | ⟨r, rfl⟩
    · rfl
    · simp [List.takeWhile_cons]
  | cons a t ih =>
    have ha : a ≠ '\n' := hnl a (by simp)
    rw [List.cons_append, List.takeWhile_cons, if_pos (by simpa using ha)]
    rw [ih (fun c hc => hnl c (List.mem_cons_of_mem _ hc))]

theorem matchTitle_canonical {t u2 : List Char}
    (ht : t ≠ []) (hnl : ∀ c ∈ t, c ≠ '\n') (hth : isSpaceChar t.headI = false)
    (hu : u2 = [] ∨ ∃ r, u2 = '\n' :: r) :
    matchTitleAfterHash (' ' :: (t ++ u2)) = some t := by
  obtain ⟨th, tt, rfl⟩ := List.exists_cons_of_ne_nil ht
  have hth2 : isSpaceChar th = false := hth
  have hw : (' ' :: (th :: tt ++ u2)).takeWhile isSpaceChar = [' '] := by
    rw [List.takeWhile_cons, if_pos (by decide : isSpaceChar ' ' = true)]
    rw [List.cons_append, List.takeWhile_cons, hth2]
    simp
  rw [show ((' ' :: (th :: tt ++ u2)) : List Char) = ' ' :: (th :: tt ++ u2) from rfl]
  rw [matchTitleAfterHash.eq_1]
  rw [hw]
  rw [show ([' '] : List Char).length = 1 from rfl]
  rw [if_neg (by omega : ¬(1 = 0))]
  show titleBacktrack (' ' :: (th :: tt ++ u2)) 1 = some (th :: tt)
  rw [show (1 : Nat) = Nat.succ 0 from rfl, titleBacktrack]
  rw [show (' ' :: (th :: tt ++ u2)).drop (Nat.succ 0) = th :: (tt ++ u2) from by simp]
  have hthn : th ≠ '\n' := hnl th (by simp)
  show (if th = '\n' then titleBacktrack (' ' :: (th :: tt ++ u2)) 0
      else some (List.takeWhile (fun x => decide (x ≠ '\n')) (th :: (tt ++ u2)))) =
    some (th :: tt)
  rw [if_neg hthn]
  have : th :: (tt ++ u2) = (th :: tt) ++ u2 := by simp
  rw [this, takeWhile_no_nl_append (th :: tt) u2 hnl hu]

theorem findTitle_canonical {content t : List Char} (source_id : List Char)
    (ht : t ≠ []) (hnl : ∀ c ∈ t, c ≠ '\n') (hth : isSpaceChar t.headI = false)
    (hform : (∃ rest, content = '#' :: ' ' :: (t ++ '\n' :: rest)) ∨
      content = '#' :: ' ' :: t) :
    (findTitle content).getD source_id = t := by
  have hmt : ∀ u2, (u2 = [] ∨ ∃ r, u2 = '\n' :: r) →
      findTitle ('#' :: ' ' :: (t ++ u2)) = some t := by
    intro u2 hu
    have h1 : matchTitleAfterHash (' ' :: (t ++ u2)) = some t :=
      matchTitle_canonical ht hnl hth hu
    show (match matchTitleAfterHash (' ' :: (t ++ u2)) with
        | some t2 => some t2
        | none => findTitleAux (decide (('#' : Char) = '\n')) (' ' :: (t ++ u2))) = some t
    rw [h1]
  rcases hform with ⟨rest, rfl⟩ | rfl
  · rw [hmt ('\n' :: rest) (Or.inr ⟨rest, rfl⟩)]
    rfl
  · have : ('#' :: ' ' :: t : List Char) = '#' :: ' ' :: (t ++ []) := by simp
    rw [this, hmt [] (Or.inl rfl)]
    rfl

/-- C4: for every document with at least one second-level header,
`chunk_document` returns one chunk per header section plus one for the
preamble when it is non-empty after stripping; every header section survives
as a chunk whose content is the preamble tag followed by the stripped section,
which still begins with its own header line (up to the trailing whitespace
removed by `strip()`); every returned chunk's content contains the title line
`# {doc_title}`; and when the document starts with a canonical title line
`# t`, the detected title is exactly `t`, so every chunk contains the
document's title line. -/
theorem C4_chunk_document (content source_id : List Char)
    (h : 1 ≤ countHeaders content) :
    ((chunk_document content source_id).length =
      (if stripChars ((splitSections content).headI) = [] then 0 else 1) +
        countHeaders content)
    ∧ (∀ s ∈ (splitSections content).tail,
        isHeaderAt s = true
        ∧ ∃ ch ∈ chunk_document content source_id,
            ch.content = "[From: ".data ++ source_id ++ "]\n# ".data ++
                ((findTitle content).getD source_id) ++ "\n\n".data ++ stripChars s
            ∧ stripTrailing (firstLine s) <+: stripChars s)
    ∧ (∀ ch ∈ chunk_document content source_id,
        ("# ".data ++ (findTitle content).getD source_id) <:+: ch.content)
    ∧ (∀ t : List Char, t ≠ [] → (∀ c ∈ t, c ≠ '\n') → isSpaceChar t.headI = false →
        ((∃ rest, content = '#' :: ' ' :: (t ++ '\n' :: rest)) ∨
          content = '#' :: ' ' :: t) →
        (findTitle content).getD source_id = t) :=
  ⟨chunk_document_length content source_id h,
    fun s hs => chunk_document_header_section content source_id hs,
    chunk_document_title_infix content source_id h,
    fun t ht hnl hth hform => findTitle_canonical source_id ht hnl hth hform⟩

/-- Witness for C4 on the concrete document `"# T\n## A\nx"`. -/
theorem C4_chunk_document_witness :
    1 ≤ countHeaders "# T\n## A\nx".data
    ∧ (((chunk_document "# T\n## A\nx".data "s".data).length =
        (if stripChars ((splitSections "# T\n## A\nx".data).headI) = [] then 0 else 1) +
          countHeaders "# T\n## A\nx".data)
      ∧ (∀ s ∈ (splitSections "# T\n## A\nx".data).tail,
          isHeaderAt s = true
          ∧ ∃ ch ∈ chunk_document "# T\n## A\nx".data "s".data,
              ch.content = "[From: ".data ++ "s".data ++ "]\n# ".data ++
                  ((findTitle "# T\n## A\nx".data).getD "s".data) ++ "\n\n".data ++
                    stripChars s
              ∧ stripTrailing (firstLine s) <+: stripChars s)
      ∧ (∀ ch ∈ chunk_document "# T\n## A\nx".data "s".data,
          ("# ".data ++ (findTitle "# T\n## A\nx".data).getD "s".data) <:+: ch.content)
      ∧ (∀ t : List Char, t ≠ [] → (∀ c ∈ t, c ≠ '\n') → isSpaceChar t.headI = false →
          ((∃ rest, "# T\n## A\nx".data = '#' :: ' ' :: (t ++ '\n' :: rest)) ∨
            "# T\n## A\nx".data = '#' :: ' ' :: t) →
          (findTitle "# T\n## A\nx".data).getD "s".data = t)) :=
  ⟨by decide, C4_chunk_document "# T\n## A\nx".data "s".data (by decide)⟩

/-- C5 as stated is false: ingesting the Linda document under `source_id`
"doc1" saves 3 chunks, not 2 — the preamble `# Linda` is non-empty after
stripping and becomes its own chunk in addition to the two `##` sections
(consistent with the spec's own "one chunk per header section plus any
preamble" rule). -/
theorem C5_linda_counterexample :
    (embed_notion_page (.ok lindaDoc) true "doc1".data).1 = 3 ∧ (3 : Nat) ≠ 2 :=
  ⟨by decide, by decide⟩

/-- C5 amended: ingesting the Linda document under `source_id` "doc1" saves
exactly 3 chunks — the title-only preamble chunk plus one per `##` section —
and each saved chunk's content is prefixed with `"[From: doc1]\n# Linda"`. -/
theorem C5_linda_amended :
    (embed_notion_page (.ok lindaDoc) true "doc1".data).1 = 3
    ∧ (embed_notion_page (.ok lindaDoc) true "doc1".data).2.length = 3
    ∧ ∀ ch ∈ (embed_notion_page (.ok lindaDoc) true "doc1".data).2,
        "[From: doc1]\n# Linda".data <+: ch.content := by
  refine ⟨by decide, by decide, ?_⟩
  decide

/-- C7 as stated is half false: when the embedding backend fails during
ingestion of the Linda document, the body of `embed_notion_page` raises, but
the surrounding `except Exception: return 0` swallows the error and the
function returns the count 0 instead of raising. -/
theorem C7_ingestion_counterexample :
    embed_page_body (.ok lindaDoc) false "doc1".data = .error ()
    ∧ embed_notion_page (.ok lindaDoc) false "doc1".data = (0, []) := by
  constructor
  · show (if lindaDoc = [] || decide (stripChars lindaDoc = []) then
        (.ok (0, []) : Except Unit (Nat × List Chunk))
      else if false then .ok ((chunk_document lindaDoc "doc1".data).length,
        chunk_document lindaDoc "doc1".data) else .error ()) = .error ()
    rw [show (lindaDoc = [] || decide (stripChars lindaDoc = [])) = false from by decide]
    rfl
  · rfl

/-- C7 amended: a failing embedding backend is surfaced to the caller during
a query — `retrieve_context` has no handler around `generate_embedding`, so
the error propagates — but during ingestion `embed_notion_page` catches every
exception and returns a chunk count of 0 rather than raising. -/
theorem C7_embedding_error_amended :
    (∀ (bm : List (Nat × ℚ)) (semantic_of : List ℚ → List (Nat × ℚ))
        (meta : List (Nat × MetaRec)) (top_k : Nat),
      retrieve_context (.error ()) bm semantic_of meta top_k = .error ())
    ∧ (∀ (content url : List Char),
        (embed_notion_page (.ok content) false url).1 = 0) := by
  constructor
  · intro bm semantic_of meta top_k
    rfl
  · intro content url
    by_cases hc : (content = [] || decide (stripChars content = [])) = true
    · simp only [embed_notion_page, embed_page_body]
      rw [show (decide (content = []) || decide (stripChars content = [])) = true
        from by simpa using hc]
      rfl
    · simp only [embed_notion_page, embed_page_body]
      rw [show (decide (content = []) || decide (stripChars content = [])) = false
        from by simpa using hc]
      rfl

theorem formatLoop_break {r : SearchResult} {rest : List SearchResult} {i : Nat}
    {max_chars chars_used : ℤ}
    (h : max_chars - chars_used - ((headerFor i r).length : ℤ) - 10 ≤ 100) :
    formatLoop (r :: rest) i max_chars chars_used = [] := by
  simp only [formatLoop]
  rw [if_pos h]

theorem formatLoop_fits {r : SearchResult} {rest : List SearchResult} {i : Nat}
    {max_chars chars_used : ℤ}
    (h100 : 100 < max_chars - chars_used - ((headerFor i r).length : ℤ) - 10)
    (hfit : ¬(max_chars - chars_used - ((headerFor i r).length : ℤ) - 10 <
      (r.content.length : ℤ))) :
    formatLoop (r :: rest) i max_chars chars_used =
      (headerFor i r ++ '\n' :: (r.content ++ ['\n'])) ::
        formatLoop rest (i + 1) max_chars
          (chars_used + ((headerFor i r ++ '\n' :: (r.content ++ ['\n'])).length : ℤ)) := by
  simp only [formatLoop]
  rw [if_neg (not_le.mpr h100), if_neg hfit]

theorem formatLoop_truncates {r : SearchResult} {rest : List SearchResult} {i : Nat}
    {max_chars chars_used : ℤ}
    (h100 : 100 < max_chars - chars_used - ((headerFor i r).length : ℤ) - 10)
    (hover : max_chars - chars_used - ((headerFor i r).length : ℤ) - 10 <
      (r.content.length : ℤ)) :
    formatLoop (r :: rest) i max_chars chars_used =
      [headerFor i r ++ '\n' ::
        ((r.content.take (max_chars - chars_used - ((headerFor i r).length : ℤ) -
            10 - 3).toNat ++ "...".data) ++ ['\n'])] := by
  have havail : (0 : ℤ) ≤ max_chars - chars_used - ((headerFor i r).length : ℤ) - 10 - 3 := by
    omega
  have htake : (r.content.take (max_chars - chars_used - ((headerFor i r).length : ℤ) -
      10 - 3).toNat).length = (max_chars - chars_used - ((headerFor i r).length : ℤ) -
      10 - 3).toNat := by
    rw [List.length_take]
    have : (max_chars - chars_used - ((headerFor i r).length : ℤ) - 10 - 3).toNat ≤
        r.content.length := by
      rw [Int.toNat_le]
      omega
    omega
  simp only [formatLoop]
  rw [if_neg (not_le.mpr h100), if_pos hover]
  have hcast : (((max_chars - chars_used - ((headerFor i r).length : ℤ) -
      10 - 3).toNat : ℤ)) = max_chars - chars_used - ((headerFor i r).length : ℤ) -
      10 - 3 := Int.toNat_of_nonneg havail
  congr 1
  cases rest with
  | nil => rfl
  | cons r2 rest2 =>
    apply formatLoop_break
    have hE : ((headerFor i r ++ '\n' ::
        ((r.content.take (max_chars - chars_used - ((headerFor i r).length : ℤ) -
          10 - 3).toNat ++ "...".data) ++ ['\n'])).length : ℤ) =
        ((headerFor i r).length : ℤ) +
          (max_chars - chars_used - ((headerFor i r).length : ℤ) - 10 - 3) + 5 := by
    -- length = header + 1 + (take + 3) + 1
      simp only [List.length_append, List.length_cons, List.length_nil, htake]
      push_cast [hcast]
      ring
    rw [hE]
    have hpos : (0 : ℤ) ≤ ((headerFor (i + 1) r2).length : ℤ) := by positivity
    omega

theorem joinParts_length_le (ps : List (List Char)) :
    (joinParts ps).length ≤ entryLens ps + ps.length := by
  induction ps with
  | nil => simp [joinParts, entryLens]
  | cons p ps ih =>
    cases ps with
    | nil => simp [joinParts, entryLens]
    | cons q ps2 =>
      simp only [joinParts, List.length_append, List.length_cons, entryLens,
        List.map_cons, List.sum_cons] at ih ⊢
      omega

theorem formatLoop_length_le (results : List SearchResult) : ∀ (i : Nat) (mc c : ℤ),
    (formatLoop results i mc c).length ≤ results.length := by
  induction results with
  | nil => intro i mc c; simp [formatLoop]
  | cons r rest ih =>
    intro i mc c
    simp only [formatLoop]
    split
    · simp
    · split <;> · simp only [List.length_cons]
                  exact Nat.succ_le_succ (ih _ _ _)

theorem formatLoop_budget (results : List SearchResult) : ∀ (i : Nat) (mc c : ℤ),
    (entryLens (formatLoop results i mc c) : ℤ) ≤ max 0 (mc - 8 - c) := by
  induction results with
  | nil =>
    intro i mc c
    simp [formatLoop, entryLens]
  | cons r rest ih =>
    intro i mc c
    by_cases h100 : mc - c - ((headerFor i r).length : ℤ) - 10 ≤ 100
    · rw [formatLoop_break h100]
      simp [entryLens]
    · push_neg at h100
      by_cases hover : mc - c - ((headerFor i r).length : ℤ) - 10 < (r.content.length : ℤ)
      · rw [formatLoop_truncates h100 hover]
        have havail : (0 : ℤ) ≤ mc - c - ((headerFor i r).length : ℤ) - 10 - 3 := by omega
        have hcast := Int.toNat_of_nonneg havail
        have htake : (r.content.take (mc - c - ((headerFor i r).length : ℤ) -
            10 - 3).toNat).length = (mc - c - ((headerFor i r).length : ℤ) -
            10 - 3).toNat := by
          rw [List.length_take]
          have : (mc - c - ((headerFor i r).length : ℤ) - 10 - 3).toNat ≤
              r.content.length := by
            rw [Int.toNat_le]
            omega
          omega
        simp only [entryLens, List.map_cons, List.map_nil, List.sum_cons, List.sum_nil,
          List.length_append, List.length_cons, List.length_nil, htake]
        push_cast [hcast]
        omega
      · rw [formatLoop_fits h100 hover]
        have hE : ((headerFor i r ++ '\n' :: (r.content ++ ['\n'])).length : ℤ) =
            ((headerFor i r).length : ℤ) + (r.content.length : ℤ) + 2 := by
          simp only [List.length_append, List.length_cons, List.length_nil]
          push_cast
          ring
        have ihv := ih (i + 1) mc
          (c + ((headerFor i r ++ '\n' :: (r.content ++ ['\n'])).length : ℤ))
        simp only [entryLens, List.map_cons, List.sum_cons] at ihv ⊢
        push_cast at ihv ⊢
        omega

/-- C8: the formatter accumulates rendered entries (header line then content)
until the budget is exhausted; with `available = max_chars - chars_used -
len(header) - 10`, an item is dropped (with all later items) when at most 100
characters remain, is truncated to `available` characters ending in `...`
when its content overflows a still-open budget, and is rendered in full
otherwise; the total output length is bounded by `max_chars` minus the
8-character reserve plus one joining newline per rendered entry (the header
overhead), hence by `max 0 (max_chars - 8) + results.length`. -/
theorem C8_format_context (r : SearchResult) (rest results : List SearchResult)
    (i : Nat) (max_chars chars_used : ℤ) (hne : results ≠ []) :
    (max_chars - chars_used - ((headerFor i r).length : ℤ) - 10 ≤ 100 →
      formatLoop (r :: rest) i max_chars chars_used = [])
    ∧ (100 < max_chars - chars_used - ((headerFor i r).length : ℤ) - 10 →
      max_chars - chars_used - ((headerFor i r).length : ℤ) - 10 <
        (r.content.length : ℤ) →
      formatLoop (r :: rest) i max_chars chars_used =
        [headerFor i r ++ '\n' ::
          ((r.content.take (max_chars - chars_used - ((headerFor i r).length : ℤ) -
              10 - 3).toNat ++ "...".data) ++ ['\n'])])
    ∧ (100 < max_chars - chars_used - ((headerFor i r).length : ℤ) - 10 →
      ¬(max_chars - chars_used - ((headerFor i r).length : ℤ) - 10 <
        (r.content.length : ℤ)) →
      formatLoop (r :: rest) i max_chars chars_used =
        (headerFor i r ++ '\n' :: (r.content ++ ['\n'])) ::
          formatLoop rest (i + 1) max_chars
            (chars_used + ((headerFor i r ++ '\n' :: (r.content ++ ['\n'])).length : ℤ)))
    ∧ ((format_context_for_prompt results max_chars).length : ℤ) ≤
        max 0 (max_chars - 8) + results.length := by
  refine ⟨fun h => formatLoop_break h, fun h1 h2 => formatLoop_truncates h1 h2,
    fun h1 h2 => formatLoop_fits h1 h2, ?_⟩
  rw [format_context_for_prompt, if_neg hne]
  have h1 := joinParts_length_le (formatLoop results 1 max_chars 0)
  have h2 := formatLoop_budget results 1 max_chars 0
  have h3 := formatLoop_length_le results 1 max_chars 0
  have h4 : ((joinParts (formatLoop results 1 max_chars 0)).length : ℤ) ≤
      (entryLens (formatLoop results 1 max_chars 0) : ℤ) +
        ((formatLoop results 1 max_chars 0).length : ℤ) := by
    push_cast
    omega
  omega

/-- Witness for C8 at the concrete singleton result list with a 500-character
budget. -/
theorem C8_format_context_witness :
    ([sampleResult] ≠ ([] : List SearchResult))
    ∧ ((500 - 0 - (((headerFor 1 sampleResult).length : ℤ)) - 10 ≤ 100 →
        formatLoop [sampleResult] 1 500 0 = [])
      ∧ (100 < 500 - 0 - (((headerFor 1 sampleResult).length : ℤ)) - 10 →
        500 - 0 - (((headerFor 1 sampleResult).length : ℤ)) - 10 <
          (sampleResult.content.length : ℤ) →
        formatLoop [sampleResult] 1 500 0 =
          [headerFor 1 sampleResult ++ '\n' ::
            ((sampleResult.content.take (500 - 0 -
                (((headerFor 1 sampleResult).length : ℤ)) - 10 - 3).toNat ++
              "...".data) ++ ['\n'])])
      ∧ (100 < 500 - 0 - (((headerFor 1 sampleResult).length : ℤ)) - 10 →
        ¬(500 - 0 - (((headerFor 1 sampleResult).length : ℤ)) - 10 <
          (sampleResult.content.length : ℤ)) →
        formatLoop [sampleResult] 1 500 0 =
          (headerFor 1 sampleResult ++ '\n' :: (sampleResult.content ++ ['\n'])) ::
            formatLoop [] (1 + 1) 500
              (0 + ((headerFor 1 sampleResult ++ '\n' ::
                (sampleResult.content ++ ['\n'])).length : ℤ)))
      ∧ ((format_context_for_prompt [sampleResult] 500).length : ℤ) ≤
          max 0 (500 - 8) + ([sampleResult] : List SearchResult).length) :=
  ⟨by decide, C8_format_context sampleResult [] [sampleResult] 1 500 0 (by decide)⟩

theorem roundHalfEven_intCast (n : ℤ) : roundHalfEven ((n : ℚ)) = n := by
  have hq : qfloor ((n : ℚ)) = n := by
    rw [qfloor, Rat.num_intCast, Rat.den_intCast]
    exact Int.fdiv_one n
  simp only [roundHalfEven, hq, sub_self]
  rw [if_pos (by norm_num : (0 : ℚ) < 1 / 2)]

theorem formatTwoDec_half : formatTwoDec (1 / 2) = "0.50".data := by
  have h1 : (1 / 2 : ℚ) * 100 = ((50 : ℤ) : ℚ) := by norm_num
  simp only [formatTwoDec, h1, roundHalfEven_intCast]
  decide

theorem headerFor_sample : headerFor 1 sampleResult = "[1. notion_page] (score: 0.50)".data := by
  show "[".data ++ (Nat.repr 1).data ++ ". ".data ++ sampleResult.source_type ++
      "] (score: ".data ++ formatTwoDec sampleResult.final_score ++ ")".data =
    "[1. notion_page] (score: 0.50)".data
  rw [show sampleResult.final_score = 1 / 2 from rfl, formatTwoDec_half]
  decide

/-- C10: with the two-element result list `[sampleResult, sampleResult]` and
`max_chars = 140`, the first header (30 characters) leaves
`140 - 30 - 10 = 100` characters, the available-space check `available <= 100`
fails, the loop breaks, and every item — including the second — is omitted:
the formatter returns the empty string, not the "No relevant context found."
sentinel and not any truncated content. -/
theorem C10_formatter_empty_output :
    format_context_for_prompt [sampleResult, sampleResult] 140 = []
    ∧ ([sampleResult, sampleResult] : List SearchResult) ≠ []
    ∧ sampleResult.content ≠ []
    ∧ ("No relevant context found.".data ≠ ([] : List Char)) := by
  refine ⟨?_, by simp, by decide, by decide⟩
  have hlen : (((headerFor 1 sampleResult).length : ℤ)) = 30 := by
    rw [headerFor_sample]
    decide
  have hbreak := @formatLoop_break sampleResult [sampleResult] 1 140 0
    (by rw [hlen]; norm_num)
  rw [format_context_for_prompt, if_neg (by simp : ¬([sampleResult, sampleResult] :
    List SearchResult) = []), hbreak]
  rfl
